import Mathlib

/-! Collaborative canvas: the per-room stroke history, the room registry and
the socket handlers.

A shallow embedding of `src/server/state-manager.js` (classes `RoomState` and
`StateManager`), `src/server/rooms.js` (class `RoomManager`) and the
state-changing handlers of `src/server/server.js`. Strokes are an arbitrary
type `σ`; JavaScript numbers that index the history are integers here,
`Array.prototype.slice` is modelled with its clamping and its negative-index
rule, and a `Map` is an insertion-ordered list of entries with distinct keys.
-/

set_option autoImplicit false
set_option linter.unusedSectionVars false

namespace Canvas

universe u

variable {σ : Type u}

/-! ## JavaScript array primitives -/

/-- Relative index resolution of `Array.prototype.slice`: a negative index
counts from the end and is clamped at `0`, a non-negative index is clamped at
the length. -/
def sliceIndex (len : Nat) (i : Int) : Nat :=
  if i < 0 then (Int.ofNat len + i).toNat else min i.toNat len

/-- The call `xs.slice(start, stop)`. -/
def jsSlice (xs : List σ) (start stop : Int) : List σ :=
  let k := sliceIndex xs.length start
  let f := sliceIndex xs.length stop
  (xs.drop k).take (f - k)

/-- The call `xs.slice(start)`: the end defaults to the length. -/
def jsSliceFrom (xs : List σ) (start : Int) : List σ :=
  xs.drop (sliceIndex xs.length start)

/-- The read `xs[i]` for an integer `i`: `undefined` (here `none`) outside the
array. -/
def jsIndex (xs : List σ) (i : Int) : Option σ :=
  if i < 0 then none else xs.get? i.toNat

/-! ## RoomState -/

/-- The fields of `RoomState`. -/
structure RoomState (σ : Type u) where
  history : List σ
  historyPointer : Int
  maxHistorySize : Int

/-- The object returned by `undo()`; a key that is absent is `none`. -/
structure UndoResult (σ : Type u) where
  success : Bool
  reason : Option String
  undoneStroke : Option σ
  strokes : Option (List σ)

/-- The object returned by `redo()`; a key that is absent is `none`. -/
structure RedoResult (σ : Type u) where
  success : Bool
  reason : Option String
  redoneStroke : Option σ
  strokes : Option (List σ)

namespace RoomState

/-- The constructor: empty history, pointer `-1`, cap `1000`. -/
def new : RoomState σ :=
  { history := [], historyPointer := -1, maxHistorySize := 1000 }

/-- The getter `strokes`. -/
def strokes (s : RoomState σ) : List σ :=
  if s.historyPointer < 0 then [] else jsSlice s.history 0 (s.historyPointer + 1)

/-- The method `canUndo()`. -/
def canUndo (s : RoomState σ) : Bool :=
  decide (s.historyPointer ≥ 0)

/-- The method `canRedo()`. -/
def canRedo (s : RoomState σ) : Bool :=
  decide (s.historyPointer < Int.ofNat s.history.length - 1)

/-- The method `addStroke(stroke)`: the returned stroke and the state after. -/
def addStroke (s : RoomState σ) (stroke : σ) : σ × RoomState σ :=
  let h1 :=
    if s.historyPointer < Int.ofNat s.history.length - 1 then
      jsSlice s.history 0 (s.historyPointer + 1)
    else s.history
  let h2 := h1 ++ [stroke]
  let p2 : Int := Int.ofNat h2.length - 1
  if Int.ofNat h2.length > s.maxHistorySize then
    let excess : Int := Int.ofNat h2.length - s.maxHistorySize
    (stroke, { s with history := jsSliceFrom h2 excess, historyPointer := p2 - excess })
  else
    (stroke, { s with history := h2, historyPointer := p2 })

/-- The method `undo()`: the returned object and the state after. -/
def undo (s : RoomState σ) : UndoResult σ × RoomState σ :=
  if !s.canUndo then
    ({ success := false, reason := some "Nothing to undo", undoneStroke := none,
       strokes := none }, s)
  else
    let undoneStroke := jsIndex s.history s.historyPointer
    let s1 : RoomState σ := { s with historyPointer := s.historyPointer - 1 }
    ({ success := true, reason := none, undoneStroke := undoneStroke,
       strokes := some s1.strokes }, s1)

/-- The method `redo()`: the returned object and the state after. -/
def redo (s : RoomState σ) : RedoResult σ × RoomState σ :=
  if !s.canRedo then
    ({ success := false, reason := some "Nothing to redo", redoneStroke := none,
       strokes := none }, s)
  else
    let s1 : RoomState σ := { s with historyPointer := s.historyPointer + 1 }
    let redoneStroke := jsIndex s1.history s1.historyPointer
    ({ success := true, reason := none, redoneStroke := redoneStroke,
       strokes := some s1.strokes }, s1)

/-- The method `clear()`. -/
def clear (s : RoomState σ) : RoomState σ :=
  { s with history := [], historyPointer := -1 }

/-- States a `RoomState` object can be in: the constructor followed by any
finite sequence of `addStroke`, `undo`, `redo` and `clear` calls. -/
inductive Reachable : RoomState σ → Prop
  | new : Reachable RoomState.new
  | addStroke (s : RoomState σ) (x : σ) : Reachable s → Reachable (s.addStroke x).2
  | undo (s : RoomState σ) : Reachable s → Reachable s.undo.2
  | redo (s : RoomState σ) : Reachable s → Reachable s.redo.2
  | clear (s : RoomState σ) : Reachable s → Reachable s.clear

/-- The state after committing the strokes of `xs` in order. -/
def addStrokes (s : RoomState σ) (xs : List σ) : RoomState σ :=
  xs.foldl (fun t x => (t.addStroke x).2) s

/-- The valid-pointer condition of the data model. -/
def PointerValid (s : RoomState σ) : Prop :=
  -1 ≤ s.historyPointer ∧ s.historyPointer ≤ Int.ofNat s.history.length - 1

instance (s : RoomState σ) : Decidable (PointerValid s) := by
  unfold PointerValid
  infer_instance

/-- The invariant carried by every reachable state: the cap is the one the
constructor sets, the pointer is valid and the history fits the cap. -/
def Inv (s : RoomState σ) : Prop :=
  s.maxHistorySize = 1000 ∧ PointerValid s ∧ Int.ofNat s.history.length ≤ s.maxHistorySize

/-- A state with one committed stroke that has been undone: the history is
`[1]` and nothing is visible. -/
def undoneOne : RoomState Nat :=
  ((RoomState.new : RoomState Nat).addStroke 1).2.undo.2

/-- An empty room whose cap is set to `-1`. -/
def negCap : RoomState Nat :=
  { history := [], historyPointer := -1, maxHistorySize := -1 }

/-- Two strokes committed, one undone: history `[3, 4]`, pointer `0`. -/
def twoUndone : RoomState Nat :=
  (((RoomState.new : RoomState Nat).addStroke 3).2.addStroke 4).2.undo.2

/-- A full room with cap `2`: history `[1, 2]`, pointer at the last index. -/
def fullTwo : RoomState Nat :=
  { history := [1, 2], historyPointer := 1, maxHistorySize := 2 }

end RoomState

/-! ## JavaScript `Map`

An insertion-ordered list of entries with pairwise distinct keys. `set` on a
present key replaces the value where it stands, `set` on an absent key appends,
`delete` removes the entry. -/

universe v w

/-- Value stored under `k` in a list of entries, `none` when there is none. -/
def lookupEntry {κ : Type u} {ν : Type v} [DecidableEq κ] : List (κ × ν) → κ → Option ν
  | [], _ => none
  | e :: es, k => if e.1 = k then some e.2 else lookupEntry es k

/-- Entries after `set(k, v)`: replace in place, or append. -/
def setEntry {κ : Type u} {ν : Type v} [DecidableEq κ] : List (κ × ν) → κ → ν → List (κ × ν)
  | [], k, v => [(k, v)]
  | e :: es, k, v => if e.1 = k then (k, v) :: es else e :: setEntry es k v

/-- Entries after `delete(k)`. -/
def deleteEntry {κ : Type u} {ν : Type v} [DecidableEq κ] (es : List (κ × ν)) (k : κ) :
    List (κ × ν) :=
  es.filter (fun e => decide (e.1 ≠ k))

/-- A JavaScript `Map`. -/
structure JSMap (κ : Type u) (ν : Type v) where
  entries : List (κ × ν)
  nodup : (entries.map Prod.fst).Nodup

namespace JSMap

variable {κ : Type u} {ν : Type v}

/-- The call `new Map()`. -/
def empty : JSMap κ ν :=
  ⟨[], List.nodup_nil⟩

/-- The call `m.get(k)`; `undefined` is `none`. -/
def get [DecidableEq κ] (m : JSMap κ ν) (k : κ) : Option ν :=
  lookupEntry m.entries k

/-- The call `m.has(k)`. -/
def has [DecidableEq κ] (m : JSMap κ ν) (k : κ) : Bool :=
  (m.get k).isSome

/-- The call `m.set(k, v)`. -/
def set [DecidableEq κ] (m : JSMap κ ν) (k : κ) (v : ν) : JSMap κ ν :=
  ⟨setEntry m.entries k v, by
    have keys : ∀ es : List (κ × ν), (setEntry es k v).map Prod.fst =
        if k ∈ es.map Prod.fst then es.map Prod.fst else es.map Prod.fst ++ [k] := by
      intro es
      induction es with
      | nil => simp [setEntry]
      | cons e es ih =>
        by_cases h : e.1 = k
        · simp [setEntry, h]
        · have h2 : ¬ k = e.1 := fun h3 => h h3.symm
          by_cases hm : k ∈ es.map Prod.fst
          · simp only [setEntry, h, if_false, List.map_cons, ih, hm, if_true, List.mem_cons,
              or_true]
          · simp only [setEntry, h, if_false, List.map_cons, ih, hm, List.mem_cons, h2,
              or_self, List.cons_append]
    rw [keys]
    split_ifs with h
    · exact m.nodup
    · exact List.Nodup.append m.nodup (List.nodup_singleton k)
        (by
          intro a ha hk
          rw [List.mem_singleton] at hk
          exact h (hk ▸ ha))⟩

/-- The call `m.delete(k)`: whether an entry was removed, and the map after. -/
def delete [DecidableEq κ] (m : JSMap κ ν) (k : κ) : Bool × JSMap κ ν :=
  (m.has k, ⟨deleteEntry m.entries k,
    List.Nodup.sublist (List.Sublist.map Prod.fst (List.filter_sublist m.entries)) m.nodup⟩)

/-- The property `m.size`. -/
def size (m : JSMap κ ν) : Nat :=
  m.entries.length

/-- The keys in insertion order, `Array.from(m.keys())`. -/
def keys (m : JSMap κ ν) : List κ :=
  m.entries.map Prod.fst

/-- The values in insertion order, `Array.from(m.values())`. -/
def values (m : JSMap κ ν) : List ν :=
  m.entries.map Prod.snd

end JSMap

/-! ## RoomManager (`src/server/rooms.js`) -/

/-- The record built in the `room:join` handler and stored per member. -/
structure UserData (ι : Type u) where
  id : ι
  name : String
  color : String
  joinedAt : Nat

/-- The field of `RoomManager`: room id to (user id to user record). -/
structure RoomManager (ρ : Type u) (ι : Type v) where
  rooms : JSMap ρ (JSMap ι (UserData ι))

namespace RoomManager

variable {ρ : Type u} {ι : Type v}

/-- The constructor. -/
def new : RoomManager ρ ι :=
  ⟨JSMap.empty⟩

/-- The method `addUser(roomId, userData)`. The `none` branch of the match
stands for a failed `get` right after the `set`, which does not occur. -/
def addUser [DecidableEq ρ] [DecidableEq ι] (m : RoomManager ρ ι) (roomId : ρ)
    (userData : UserData ι) : Bool × RoomManager ρ ι :=
  let rooms1 := if !m.rooms.has roomId then m.rooms.set roomId JSMap.empty else m.rooms
  match rooms1.get roomId with
  | some room => (true, ⟨rooms1.set roomId (room.set userData.id userData)⟩)
  | none => (true, ⟨rooms1⟩)

/-- The method `removeUser(roomId, userId)`. -/
def removeUser [DecidableEq ρ] [DecidableEq ι] (m : RoomManager ρ ι) (roomId : ρ)
    (userId : ι) : Bool × RoomManager ρ ι :=
  match m.rooms.get roomId with
  | none => (false, m)
  | some room =>
    let removed := (room.delete userId).1
    let room1 := (room.delete userId).2
    let rooms1 := m.rooms.set roomId room1
    if room1.size = 0 then (removed, ⟨(rooms1.delete roomId).2⟩) else (removed, ⟨rooms1⟩)

/-- The method `getUsers(roomId)`. -/
def getUsers [DecidableEq ρ] (m : RoomManager ρ ι) (roomId : ρ) : List (UserData ι) :=
  match m.rooms.get roomId with
  | none => []
  | some room => room.values

/-- The method `getUser(roomId, userId)`; `null` and `undefined` are `none`. -/
def getUser [DecidableEq ρ] [DecidableEq ι] (m : RoomManager ρ ι) (roomId : ρ) (userId : ι) :
    Option (UserData ι) :=
  match m.rooms.get roomId with
  | none => none
  | some room => room.get userId

/-- The method `isRoomEmpty(roomId)`. -/
def isRoomEmpty [DecidableEq ρ] (m : RoomManager ρ ι) (roomId : ρ) : Bool :=
  match m.rooms.get roomId with
  | none => true
  | some room => decide (room.size = 0)

/-- The method `getUserCount(roomId)`. -/
def getUserCount [DecidableEq ρ] (m : RoomManager ρ ι) (roomId : ρ) : Nat :=
  match m.rooms.get roomId with
  | none => 0
  | some room => room.size

/-- The method `getRoomCount()`. -/
def getRoomCount (m : RoomManager ρ ι) : Nat :=
  m.rooms.size

/-- The method `getTotalUserCount()`. -/
def getTotalUserCount (m : RoomManager ρ ι) : Nat :=
  m.rooms.values.foldl (fun count room => count + room.size) 0

/-- The method `deleteRoom(roomId)`. -/
def deleteRoom [DecidableEq ρ] (m : RoomManager ρ ι) (roomId : ρ) : Bool × RoomManager ρ ι :=
  ((m.rooms.delete roomId).1, ⟨(m.rooms.delete roomId).2⟩)

/-- The method `getRoomIds()`. -/
def getRoomIds (m : RoomManager ρ ι) : List ρ :=
  m.rooms.keys

/-- States a `RoomManager` object can be in: the constructor followed by any
finite sequence of `addUser`, `removeUser` and `deleteRoom` calls. -/
inductive Reachable [DecidableEq ρ] [DecidableEq ι] : RoomManager ρ ι → Prop
  | new : Reachable RoomManager.new
  | addUser (m : RoomManager ρ ι) (r : ρ) (u : UserData ι) :
      Reachable m → Reachable (m.addUser r u).2
  | removeUser (m : RoomManager ρ ι) (r : ρ) (i : ι) :
      Reachable m → Reachable (m.removeUser r i).2
  | deleteRoom (m : RoomManager ρ ι) (r : ρ) : Reachable m → Reachable (m.deleteRoom r).2

/-- Every room held in the map has at least one member. -/
def NoEmptyRoom (m : RoomManager ρ ι) : Prop :=
  ∀ e ∈ m.rooms.entries, e.2.size ≠ 0

/-- Every record is stored under its own `id`. -/
def WellKeyed (m : RoomManager ρ ι) : Prop :=
  ∀ e ∈ m.rooms.entries, ∀ p ∈ e.2.entries, p.2.id = p.1

/-- A user record with id `1`. -/
def alice : UserData Nat :=
  { id := 1, name := "SwiftArtist7", color := "#EF4444", joinedAt := 0 }

/-- A user record with id `2`. -/
def bob : UserData Nat :=
  { id := 2, name := "CoolMaker42", color := "#22C55E", joinedAt := 5 }

/-- The registry after `alice` joined room `10`. -/
def soloRoom : RoomManager Nat Nat :=
  ((RoomManager.new : RoomManager Nat Nat).addUser 10 alice).2

/-- The registry after `alice` and `bob` joined room `10`. -/
def duoRoom : RoomManager Nat Nat :=
  (soloRoom.addUser 10 bob).2

end RoomManager

/-! ## StateManager (`src/server/state-manager.js`) -/

/-- The field of `StateManager`: room id to `RoomState`. A method call on a
stored `RoomState` object is a `set` of the state after under the same key. -/
structure StateManager (σ : Type u) (ρ : Type v) where
  rooms : JSMap ρ (RoomState σ)

namespace StateManager

variable {ρ : Type v}

/-- The constructor. -/
def new : StateManager σ ρ :=
  ⟨JSMap.empty⟩

/-- The method `initRoom(roomId)`: the returned `RoomState` and the manager
after. The `none` branch of the match stands for a failed `get` right after
the `set`, which does not occur. -/
def initRoom [DecidableEq ρ] (m : StateManager σ ρ) (roomId : ρ) :
    RoomState σ × StateManager σ ρ :=
  let rooms1 := if !m.rooms.has roomId then m.rooms.set roomId RoomState.new else m.rooms
  match rooms1.get roomId with
  | some state => (state, ⟨rooms1⟩)
  | none => (RoomState.new, ⟨rooms1⟩)

/-- The method `getRoomState(roomId)`. -/
def getRoomState [DecidableEq ρ] (m : StateManager σ ρ) (roomId : ρ) :
    RoomState σ × StateManager σ ρ :=
  m.initRoom roomId

/-- The method `addStroke(roomId, stroke)`. -/
def addStroke [DecidableEq ρ] (m : StateManager σ ρ) (roomId : ρ) (stroke : σ) :
    σ × StateManager σ ρ :=
  let state := (m.getRoomState roomId).1
  let m1 := (m.getRoomState roomId).2
  ((state.addStroke stroke).1, ⟨m1.rooms.set roomId (state.addStroke stroke).2⟩)

/-- The method `clearRoom(roomId)`. -/
def clearRoom [DecidableEq ρ] (m : StateManager σ ρ) (roomId : ρ) : StateManager σ ρ :=
  let state := (m.getRoomState roomId).1
  let m1 := (m.getRoomState roomId).2
  ⟨m1.rooms.set roomId state.clear⟩

/-- The method `cleanupRoom(roomId)`. -/
def cleanupRoom [DecidableEq ρ] (m : StateManager σ ρ) (roomId : ρ) : StateManager σ ρ :=
  ⟨(m.rooms.delete roomId).2⟩

/-- The method `getRoomCount()`. -/
def getRoomCount (m : StateManager σ ρ) : Nat :=
  m.rooms.size

/-- The statements `getRoomState(roomId)` then `roomState.undo()` of the
`undo:request` handler: the result, the room state after, the manager after. -/
def undoIn [DecidableEq ρ] (m : StateManager σ ρ) (roomId : ρ) :
    UndoResult σ × RoomState σ × StateManager σ ρ :=
  let state := (m.getRoomState roomId).1
  let m1 := (m.getRoomState roomId).2
  (state.undo.1, state.undo.2, ⟨m1.rooms.set roomId state.undo.2⟩)

/-- The statements `getRoomState(roomId)` then `roomState.redo()` of the
`redo:request` handler: the result, the room state after, the manager after. -/
def redoIn [DecidableEq ρ] (m : StateManager σ ρ) (roomId : ρ) :
    RedoResult σ × RoomState σ × StateManager σ ρ :=
  let state := (m.getRoomState roomId).1
  let m1 := (m.getRoomState roomId).2
  (state.redo.1, state.redo.2, ⟨m1.rooms.set roomId state.redo.2⟩)

/-- The manager holding room `10` with stroke `7` and room `20` with stroke `8`. -/
def twoRooms : StateManager Nat Nat :=
  (((StateManager.new : StateManager Nat Nat).addStroke 10 7).2.addStroke 20 8).2

end StateManager

/-! ## The socket handlers (`src/server/server.js`) -/

/-- The closure variables `currentRoom` and `userData` of one connection;
`null` is `none`. -/
structure SocketVars (ρ : Type v) (ι : Type w) where
  currentRoom : Option ρ
  userData : Option (UserData ι)

/-- Where a message is sent: `socket.emit`, `socket.to(room).emit` (the room
without the sender) or `io.to(room).emit`. -/
inductive Target (ρ : Type v) (ι : Type w) where
  | socket (id : ι)
  | others (room : ρ) (sender : ι)
  | room (room : ρ)

/-- The messages the state-changing handlers send, by event name. -/
inductive Payload (σ : Type u) (ρ : Type v) (ι : Type w) where
  | roomJoined (roomId : ρ) (userId : ι) (userName userColor : String)
  | userJoined (user : UserData ι)
  | usersUpdate (users : List (UserData ι))
  | historySync (strokes : List σ) (canUndo canRedo : Bool)
  | strokeEnd (stroke : σ)
  | undoredoState (canUndo canRedo : Bool)
  | undoApplied (strokes : List σ) (canUndo canRedo : Bool) (undoneBy : Option String)
  | redoApplied (strokes : List σ) (canUndo canRedo : Bool) (redoneBy : Option String)
  | canvasCleared
  | userLeft (id : ι)

/-- One `emit` call. -/
structure Emit (σ : Type u) (ρ : Type v) (ι : Type w) where
  target : Target ρ ι
  payload : Payload σ ρ ι

/-- The module-level managers and the closure variables of every socket id;
a socket that has not joined holds `null` in both variables. -/
structure Server (σ : Type u) (ρ : Type v) (ι : Type w) where
  roomManager : RoomManager ρ ι
  stateManager : StateManager σ ρ
  vars : ι → SocketVars ρ ι

namespace Server

variable {ρ : Type v} {ι : Type w}

/-- The state at start-up. -/
def init : Server σ ρ ι :=
  { roomManager := RoomManager.new, stateManager := StateManager.new,
    vars := fun _ => { currentRoom := none, userData := none } }

/-- The handler of `room:join` on socket `sid`. A falsy `roomId` is `none` and
is replaced by `dflt` (the string `default`); `name`, `color` and `now` are
the values `generateUserName()`, `getRandomColor()` and `Date.now()` returned
in this call. -/
def onRoomJoin [DecidableEq ρ] [DecidableEq ι] (srv : Server σ ρ ι) (sid : ι)
    (roomId : Option ρ) (dflt : ρ) (name color : String) (now : Nat) :
    List (Emit σ ρ ι) × Server σ ρ ι :=
  let currentRoom := roomId.getD dflt
  let userData : UserData ι := { id := sid, name := name, color := color, joinedAt := now }
  let rm1 := (srv.roomManager.addUser currentRoom userData).2
  let sm1 := (srv.stateManager.initRoom currentRoom).2
  let users := rm1.getUsers currentRoom
  let roomState := (sm1.getRoomState currentRoom).1
  let sm2 := (sm1.getRoomState currentRoom).2
  ([⟨Target.socket sid, Payload.roomJoined currentRoom sid name color⟩,
    ⟨Target.others currentRoom sid, Payload.userJoined userData⟩,
    ⟨Target.room currentRoom, Payload.usersUpdate users⟩,
    ⟨Target.socket sid,
      Payload.historySync roomState.strokes roomState.canUndo roomState.canRedo⟩],
   { roomManager := rm1, stateManager := sm2,
     vars := Function.update srv.vars sid
       { currentRoom := some currentRoom, userData := some userData } })

/-- The handler of `stroke:end` on socket `sid`; `stroke` is the object
`completeStroke` the handler builds from the payload. -/
def onStrokeEnd [DecidableEq ρ] (srv : Server σ ρ ι) (sid : ι) (stroke : σ) :
    List (Emit σ ρ ι) × Server σ ρ ι :=
  match (srv.vars sid).currentRoom with
  | none => ([], srv)
  | some currentRoom =>
    let sm1 := (srv.stateManager.addStroke currentRoom stroke).2
    let roomState := (sm1.getRoomState currentRoom).1
    let sm2 := (sm1.getRoomState currentRoom).2
    ([⟨Target.others currentRoom sid, Payload.strokeEnd stroke⟩,
      ⟨Target.room currentRoom, Payload.undoredoState roomState.canUndo roomState.canRedo⟩],
     { srv with stateManager := sm2 })

/-- The handler of `undo:request` on socket `sid`. -/
def onUndoRequest [DecidableEq ρ] (srv : Server σ ρ ι) (sid : ι) :
    List (Emit σ ρ ι) × Server σ ρ ι :=
  match (srv.vars sid).currentRoom with
  | none => ([], srv)
  | some currentRoom =>
    let result := (srv.stateManager.undoIn currentRoom).1
    let roomState := (srv.stateManager.undoIn currentRoom).2.1
    let sm1 := (srv.stateManager.undoIn currentRoom).2.2
    if result.success then
      ([⟨Target.room currentRoom,
          Payload.undoApplied roomState.strokes roomState.canUndo roomState.canRedo
            (((srv.vars sid).userData).map UserData.name)⟩],
       { srv with stateManager := sm1 })
    else ([], { srv with stateManager := sm1 })

/-- The handler of `redo:request` on socket `sid`. -/
def onRedoRequest [DecidableEq ρ] (srv : Server σ ρ ι) (sid : ι) :
    List (Emit σ ρ ι) × Server σ ρ ι :=
  match (srv.vars sid).currentRoom with
  | none => ([], srv)
  | some currentRoom =>
    let result := (srv.stateManager.redoIn currentRoom).1
    let roomState := (srv.stateManager.redoIn currentRoom).2.1
    let sm1 := (srv.stateManager.redoIn currentRoom).2.2
    if result.success then
      ([⟨Target.room currentRoom,
          Payload.redoApplied roomState.strokes roomState.canUndo roomState.canRedo
            (((srv.vars sid).userData).map UserData.name)⟩],
       { srv with stateManager := sm1 })
    else ([], { srv with stateManager := sm1 })

/-- The handler of `canvas:clear` on socket `sid`. -/
def onCanvasClear [DecidableEq ρ] (srv : Server σ ρ ι) (sid : ι) :
    List (Emit σ ρ ι) × Server σ ρ ι :=
  match (srv.vars sid).currentRoom with
  | none => ([], srv)
  | some currentRoom =>
    ([⟨Target.room currentRoom, Payload.canvasCleared⟩,
      ⟨Target.room currentRoom, Payload.undoredoState false false⟩],
     { srv with stateManager := srv.stateManager.clearRoom currentRoom })

/-- The handler of `disconnect` on socket `sid`. -/
def onDisconnect [DecidableEq ρ] [DecidableEq ι] (srv : Server σ ρ ι) (sid : ι) :
    List (Emit σ ρ ι) × Server σ ρ ι :=
  match (srv.vars sid).currentRoom, (srv.vars sid).userData with
  | some currentRoom, some _ =>
    let rm1 := (srv.roomManager.removeUser currentRoom sid).2
    let users := rm1.getUsers currentRoom
    let sm1 :=
      if rm1.isRoomEmpty currentRoom then srv.stateManager.cleanupRoom currentRoom
      else srv.stateManager
    ([⟨Target.others currentRoom sid, Payload.userLeft sid⟩,
      ⟨Target.room currentRoom, Payload.usersUpdate users⟩],
     { srv with roomManager := rm1, stateManager := sm1 })
  | _, _ => ([], srv)

/-- The server after socket `1` joined room `10` and committed stroke `7`. -/
def soloServer : Server Nat Nat Nat :=
  (((Server.init : Server Nat Nat Nat).onRoomJoin 1 (some 10) 0 "SwiftArtist7" "#EF4444"
    0).2.onStrokeEnd 1 7).2

/-- The server after socket `1` joined room `10`; nothing is drawn yet. -/
def joinedEmpty : Server Nat Nat Nat :=
  ((Server.init : Server Nat Nat Nat).onRoomJoin 1 (some 10) 0 "SwiftArtist7" "#EF4444" 0).2

/-- The server after socket `1` joined room `10` and then room `20`. -/
def twoJoins : Server Nat Nat Nat :=
  (joinedEmpty.onRoomJoin 1 (some 20) 0 "BraveMaker3" "#3B82F6" 1).2

end Server

/-- An event a socket sends that reaches a state-changing handler. -/
inductive Event (σ : Type u) (ρ : Type v) (ι : Type w) where
  | roomJoin (sid : ι) (roomId : Option ρ) (name color : String) (now : Nat)
  | strokeEnd (sid : ι) (stroke : σ)
  | undoRequest (sid : ι)
  | redoRequest (sid : ι)
  | canvasClear (sid : ι)
  | disconnect (sid : ι)

namespace Event

variable {ρ : Type v} {ι : Type w}

/-- The socket the event arrives on. -/
def sid : Event σ ρ ι → ι
  | roomJoin i _ _ _ _ => i
  | strokeEnd i _ => i
  | undoRequest i => i
  | redoRequest i => i
  | canvasClear i => i
  | disconnect i => i

/-- Whether the event is `disconnect`. -/
def isDisconnect : Event σ ρ ι → Bool
  | disconnect _ => true
  | _ => false

end Event

namespace Server

variable {ρ : Type v} {ι : Type w}

/-- Dispatch of one event to its handler. -/
def handle [DecidableEq ρ] [DecidableEq ι] (dflt : ρ) (srv : Server σ ρ ι) :
    Event σ ρ ι → List (Emit σ ρ ι) × Server σ ρ ι
  | Event.roomJoin i roomId name color now => srv.onRoomJoin i roomId dflt name color now
  | Event.strokeEnd i stroke => srv.onStrokeEnd i stroke
  | Event.undoRequest i => srv.onUndoRequest i
  | Event.redoRequest i => srv.onRedoRequest i
  | Event.canvasClear i => srv.onCanvasClear i
  | Event.disconnect i => srv.onDisconnect i

/-- Server states reachable from start-up, together with the ids of the
sockets that have disconnected: any sequence of events in which a socket sends
nothing after its `disconnect`. -/
inductive Reachable [DecidableEq ρ] [DecidableEq ι] (dflt : ρ) :
    Server σ ρ ι → List ι → Prop
  | init : Reachable dflt Server.init []
  | step (srv : Server σ ρ ι) (gone : List ι) (ev : Event σ ρ ι) :
      Reachable dflt srv gone → ev.sid ∉ gone →
      Reachable dflt (srv.handle dflt ev).2 (if ev.isDisconnect then ev.sid :: gone else gone)

/-- The invariant of reachable server states: no empty room is stored, the
`StateManager` holds exactly the rooms of the `RoomManager`, and every socket
that has not disconnected is a member of its `currentRoom`. -/
def Inv [DecidableEq ρ] [DecidableEq ι] (srv : Server σ ρ ι) (gone : List ι) : Prop :=
  RoomManager.NoEmptyRoom srv.roomManager ∧
  (∀ r, (srv.stateManager.rooms.get r).isSome = (srv.roomManager.rooms.get r).isSome) ∧
  (∀ i r, i ∉ gone → (srv.vars i).currentRoom = some r →
    (srv.roomManager.getUser r i).isSome = true)

end Server

/-! ## Operation sequences and the two-stack undo model -/

/-- One mutating call on a `RoomState`. -/
inductive Op (σ : Type u) where
  | addStroke (stroke : σ)
  | undo
  | redo
  | clear

namespace RoomState

/-- The state after `n` consecutive `undo()` calls. -/
def undoTimes : Nat → RoomState σ → RoomState σ
  | 0, s => s
  | n + 1, s => (undoTimes n s).undo.2

/-- The state after `n` consecutive `redo()` calls. -/
def redoTimes : Nat → RoomState σ → RoomState σ
  | 0, s => s
  | n + 1, s => (redoTimes n s).redo.2

/-- Success flag and state after one call; `addStroke` and `clear` have no
failure path. -/
def applyOp (s : RoomState σ) : Op σ → Bool × RoomState σ
  | Op.addStroke x => (true, (s.addStroke x).2)
  | Op.undo => (s.undo.1.success, s.undo.2)
  | Op.redo => (s.redo.1.success, s.redo.2)
  | Op.clear => (true, s.clear)

/-- The success flags and the state after a sequence of calls. -/
def runOps : List (Op σ) → RoomState σ → List Bool × RoomState σ
  | [], s => ([], s)
  | op :: ops, s => ((s.applyOp op).1 :: (runOps ops (s.applyOp op).2).1,
      (runOps ops (s.applyOp op).2).2)

end RoomState

/-- The two-stack undo model the claim compares `RoomState` with: the undo
stack holds the visible strokes oldest first (its top is the last element),
the redo stack holds the undone strokes with its top first. -/
structure TwoStack (σ : Type u) where
  undoStack : List σ
  redoStack : List σ
  cap : Int

namespace TwoStack

/-- Push on the undo stack, empty the redo stack, drop the oldest entry beyond
the cap. -/
def push (t : TwoStack σ) (x : σ) : TwoStack σ :=
  { t with
    undoStack :=
      if Int.ofNat (t.undoStack ++ [x]).length > t.cap then (t.undoStack ++ [x]).tail
      else t.undoStack ++ [x],
    redoStack := [] }

/-- Move the top of the undo stack to the redo stack; fails on an empty undo
stack. -/
def undo (t : TwoStack σ) : Bool × TwoStack σ :=
  match t.undoStack.getLast? with
  | none => (false, t)
  | some x => (true, { t with undoStack := t.undoStack.dropLast, redoStack := x :: t.redoStack })

/-- Move the top of the redo stack back to the undo stack; fails on an empty
redo stack. -/
def redo (t : TwoStack σ) : Bool × TwoStack σ :=
  match t.redoStack with
  | [] => (false, t)
  | x :: rest => (true, { t with undoStack := t.undoStack ++ [x], redoStack := rest })

/-- Empty both stacks. -/
def clear (t : TwoStack σ) : TwoStack σ :=
  { t with undoStack := [], redoStack := [] }

/-- Success flag and model state after one operation. -/
def applyOp (t : TwoStack σ) : Op σ → Bool × TwoStack σ
  | Op.addStroke x => (true, t.push x)
  | Op.undo => t.undo
  | Op.redo => t.redo
  | Op.clear => (true, t.clear)

/-- The success flags and the model state after a sequence of operations. -/
def runOps : List (Op σ) → TwoStack σ → List Bool × TwoStack σ
  | [], t => ([], t)
  | op :: ops, t => ((t.applyOp op).1 :: (runOps ops (t.applyOp op).2).1,
      (runOps ops (t.applyOp op).2).2)

end TwoStack

/-- The abstraction map: undo stack `history[0..pointer]` (the visible
strokes), redo stack `history[pointer+1..]`. -/
def RoomState.toTwoStack (s : RoomState σ) : TwoStack σ :=
  { undoStack := s.strokes,
    redoStack := jsSliceFrom s.history (s.historyPointer + 1),
    cap := s.maxHistorySize }

/-! ## Lemmas on the array primitives -/

theorem jsSlice_zero_of_nonneg (xs : List σ) (e : Int) (he : 0 ≤ e) :
    jsSlice xs 0 e = xs.take e.toNat := by
  have h1 : ¬ e < 0 := by omega
  simp only [jsSlice, sliceIndex, h1, if_false, lt_irrefl, Int.toNat_zero, Nat.zero_min,
    List.drop_zero, Nat.sub_zero]
  rw [List.take_eq_take]
  simp

theorem jsSliceFrom_of_nonneg (xs : List σ) (e : Int) (he : 0 ≤ e) :
    jsSliceFrom xs e = xs.drop e.toNat := by
  have h1 : ¬ e < 0 := by omega
  simp only [jsSliceFrom, sliceIndex, h1, if_false]
  rcases Nat.le_total e.toNat xs.length with h | h
  · rw [Nat.min_eq_left h]
  · rw [Nat.min_eq_right h, List.drop_length, List.drop_eq_nil_of_le h]

namespace RoomState

theorem strokes_eq_take (s : RoomState σ) (hv : PointerValid s) :
    s.strokes = s.history.take (s.historyPointer + 1).toNat := by
  obtain ⟨h1, _⟩ := hv
  unfold strokes
  split_ifs with h
  · have : s.historyPointer + 1 = 0 := by omega
    simp [this]
  · exact jsSlice_zero_of_nonneg _ _ (by omega)

theorem strokes_length (s : RoomState σ) (hv : PointerValid s) :
    Int.ofNat s.strokes.length = s.historyPointer + 1 := by
  rw [strokes_eq_take s hv]
  obtain ⟨h1, h2⟩ := hv
  simp only [List.length_take, Int.ofNat_eq_coe] at *
  omega

/-- The array held in `history` just before the `push` of `addStroke`. -/
theorem addStroke_truncate (s : RoomState σ) (hv : PointerValid s) :
    (if s.historyPointer < Int.ofNat s.history.length - 1 then
      jsSlice s.history 0 (s.historyPointer + 1) else s.history) = s.strokes := by
  rw [strokes_eq_take s hv]
  obtain ⟨h1, h2⟩ := hv
  split_ifs with h
  · exact jsSlice_zero_of_nonneg _ _ (by omega)
  · have : (s.historyPointer + 1).toNat = s.history.length := by
      simp only [Int.ofNat_eq_coe] at *
      omega
    rw [this, List.take_length]

theorem addStroke_eq (s : RoomState σ) (x : σ) (hv : PointerValid s) :
    s.addStroke x =
      (x, if Int.ofNat (s.strokes ++ [x]).length > s.maxHistorySize then
            { s with
              history := jsSliceFrom (s.strokes ++ [x])
                (Int.ofNat (s.strokes ++ [x]).length - s.maxHistorySize)
              historyPointer := s.maxHistorySize - 1 }
          else
            { s with
              history := s.strokes ++ [x]
              historyPointer := Int.ofNat (s.strokes ++ [x]).length - 1 }) := by
  unfold addStroke
  simp only [addStroke_truncate s hv]
  split_ifs with h
  · congr 2
    omega
  · rfl

theorem inv_new : Inv (RoomState.new : RoomState σ) := by
  refine ⟨rfl, ⟨?_, ?_⟩, ?_⟩ <;> simp [RoomState.new]

theorem inv_addStroke (s : RoomState σ) (x : σ) (hi : Inv s) : Inv (s.addStroke x).2 := by
  obtain ⟨hc, hv, hl⟩ := hi
  have hlen := strokes_length s hv
  obtain ⟨h1, h2⟩ := hv
  rw [addStroke_eq s x ⟨h1, h2⟩]
  simp only [List.length_append, List.length_singleton, Int.ofNat_eq_coe, Nat.cast_add,
    Nat.cast_one] at *
  split_ifs with h
  · have he : ((s.strokes.length : Int) + 1 - s.maxHistorySize) = 1 := by omega
    refine ⟨hc, ⟨?_, ?_⟩, ?_⟩ <;>
      simp only [he, jsSliceFrom_of_nonneg _ (1 : Int) (by omega), List.length_drop,
        List.length_append, List.length_singleton, Int.toNat_one, Int.ofNat_eq_coe] <;>
      omega
  · refine ⟨hc, ⟨?_, ?_⟩, ?_⟩ <;>
      simp only [List.length_append, List.length_singleton, Int.ofNat_eq_coe,
        Nat.cast_add, Nat.cast_one] <;>
      omega

theorem inv_undo (s : RoomState σ) (hi : Inv s) : Inv s.undo.2 := by
  obtain ⟨hc, ⟨h1, h2⟩, hl⟩ := hi
  unfold undo canUndo
  by_cases h : s.historyPointer ≥ 0
  · simp only [h, decide_True, Bool.not_true, Bool.false_eq_true, if_false]
    refine ⟨hc, ⟨?_, ?_⟩, hl⟩ <;> simp only [] <;> omega
  · simp only [h, decide_False, Bool.not_false, if_true]
    exact ⟨hc, ⟨h1, h2⟩, hl⟩

theorem inv_redo (s : RoomState σ) (hi : Inv s) : Inv s.redo.2 := by
  obtain ⟨hc, ⟨h1, h2⟩, hl⟩ := hi
  unfold redo canRedo
  by_cases h : s.historyPointer < Int.ofNat s.history.length - 1
  · simp only [h, decide_True, Bool.not_true, Bool.false_eq_true, if_false]
    refine ⟨hc, ⟨?_, ?_⟩, hl⟩ <;> simp only [] <;> omega
  · simp only [h, decide_False, Bool.not_false, if_true]
    exact ⟨hc, ⟨h1, h2⟩, hl⟩

theorem inv_clear (s : RoomState σ) (hi : Inv s) : Inv s.clear := by
  obtain ⟨hc, _, _⟩ := hi
  refine ⟨hc, ⟨?_, ?_⟩, ?_⟩ <;> simp [clear, hc]

theorem inv_of_reachable (s : RoomState σ) (hr : Reachable s) : Inv s := by
  induction hr with
  | new => exact inv_new
  | addStroke s x _ ih => exact inv_addStroke s x ih
  | undo s _ ih => exact inv_undo s ih
  | redo s _ ih => exact inv_redo s ih
  | clear s _ ih => exact inv_clear s ih

theorem undo_of_nonneg (s : RoomState σ) (h : 0 ≤ s.historyPointer) :
    s.undo =
      ({ success := true, reason := none,
         undoneStroke := jsIndex s.history s.historyPointer,
         strokes := some
           ({ s with historyPointer := s.historyPointer - 1 } : RoomState σ).strokes },
       { s with historyPointer := s.historyPointer - 1 }) := by
  unfold undo canUndo
  simp [h]

theorem undo_of_neg (s : RoomState σ) (h : s.historyPointer < 0) :
    s.undo =
      ({ success := false, reason := some "Nothing to undo", undoneStroke := none,
         strokes := none }, s) := by
  unfold undo canUndo
  have : ¬ s.historyPointer ≥ 0 := by omega
  simp [this]

theorem redo_of_lt (s : RoomState σ) (h : s.historyPointer < Int.ofNat s.history.length - 1) :
    s.redo =
      ({ success := true, reason := none,
         redoneStroke := jsIndex s.history (s.historyPointer + 1),
         strokes := some
           ({ s with historyPointer := s.historyPointer + 1 } : RoomState σ).strokes },
       { s with historyPointer := s.historyPointer + 1 }) := by
  unfold redo canRedo
  simp only [h, decide_True, Bool.not_true, Bool.false_eq_true, if_false]

theorem redo_of_not_lt (s : RoomState σ)
    (h : ¬ s.historyPointer < Int.ofNat s.history.length - 1) :
    s.redo =
      ({ success := false, reason := some "Nothing to redo", redoneStroke := none,
         strokes := none }, s) := by
  unfold redo canRedo
  simp only [h, decide_False, Bool.not_false, if_true]

/-- After `addStroke` under a valid pointer and a non-negative cap, the pointer
is at the last index and the history holds the visible strokes plus one,
capped. -/
theorem addStroke_last (s : RoomState σ) (x : σ) (hv : PointerValid s)
    (hc : 0 ≤ s.maxHistorySize) :
    (s.addStroke x).2.historyPointer = Int.ofNat (s.addStroke x).2.history.length - 1 ∧
    Int.ofNat (s.addStroke x).2.history.length =
      min (Int.ofNat s.strokes.length + 1) s.maxHistorySize ∧
    (s.addStroke x).2.maxHistorySize = s.maxHistorySize := by
  rw [addStroke_eq s x hv]
  split_ifs with h
  · have he : 0 ≤ Int.ofNat (s.strokes ++ [x]).length - s.maxHistorySize := by omega
    have hlen : Int.ofNat (jsSliceFrom (s.strokes ++ [x])
        (Int.ofNat (s.strokes ++ [x]).length - s.maxHistorySize)).length = s.maxHistorySize := by
      rw [jsSliceFrom_of_nonneg _ _ he]
      simp only [List.length_drop, List.length_append, List.length_singleton,
        Int.ofNat_eq_coe, Nat.cast_add, Nat.cast_one] at *
      omega
    refine ⟨?_, ?_, rfl⟩
    · simp only [hlen]
    · simp only [hlen]
      simp only [List.length_append, List.length_singleton, Int.ofNat_eq_coe, Nat.cast_add,
        Nat.cast_one] at h
      simp only [Int.ofNat_eq_coe]
      omega
  · simp only [List.length_append, List.length_singleton, Int.ofNat_eq_coe, Nat.cast_add,
      Nat.cast_one] at h
    refine ⟨?_, ?_, rfl⟩
    · simp only [Int.ofNat_eq_coe]
    · simp only [List.length_append, List.length_singleton, Int.ofNat_eq_coe, Nat.cast_add,
        Nat.cast_one]
      omega

/-- A run of commits from a state whose whole history is visible. -/
theorem addStrokes_count (cap : Int) (hc : 0 ≤ cap) (xs : List σ) :
    ∀ (t : RoomState σ) (n : Nat), t.maxHistorySize = cap →
      t.historyPointer = Int.ofNat t.history.length - 1 →
      Int.ofNat t.history.length = min (Int.ofNat n) cap →
      (t.addStrokes xs).maxHistorySize = cap ∧
      (t.addStrokes xs).historyPointer = Int.ofNat (t.addStrokes xs).history.length - 1 ∧
      Int.ofNat (t.addStrokes xs).history.length = min (Int.ofNat (n + xs.length)) cap := by
  induction xs with
  | nil =>
    intro t n h1 h2 h3
    exact ⟨h1, h2, by simpa [addStrokes] using h3⟩
  | cons x xs ih =>
    intro t n h1 h2 h3
    have hv : PointerValid t := by
      constructor <;> simp only [Int.ofNat_eq_coe] at * <;> omega
    have hl := strokes_length t hv
    obtain ⟨a1, a2, a3⟩ := addStroke_last t x hv (by omega)
    have key := ih (t.addStroke x).2 (n + 1) (by rw [a3, h1]) a1 (by
      rw [a2]
      simp only [Int.ofNat_eq_coe, Nat.cast_add, Nat.cast_one] at *
      omega)
    have hfold : t.addStrokes (x :: xs) = (t.addStroke x).2.addStrokes xs := rfl
    rw [hfold]
    have hn : n + (x :: xs).length = n + 1 + xs.length := by
      simp only [List.length_cons]
      omega
    rw [hn]
    exact key

end RoomState

/-! ## The claims on `RoomState` -/

open RoomState

/-- C1: for a state with a valid pointer whose visible strokes are fewer than
`maxHistorySize`, `addStroke x` makes both `history` and the visible strokes
equal to the previous visible strokes followed by `x` (the redo tail is gone),
puts `historyPointer` at the last index and returns `x`; and after committing
`a`, `b`, `c`, one `undo` and committing `d`, the visible strokes are
`[a, b, d]`. -/
theorem C1_addStroke_truncate_then_append (s : RoomState σ) (x : σ)
    (hv : PointerValid s) (hroom : Int.ofNat s.strokes.length < s.maxHistorySize) :
    (s.addStroke x).2.history = s.strokes ++ [x] ∧
    (s.addStroke x).2.strokes = s.strokes ++ [x] ∧
    (s.addStroke x).2.historyPointer = Int.ofNat (s.addStroke x).2.history.length - 1 ∧
    (s.addStroke x).1 = x ∧
    (∀ a b c d : σ,
      (((((RoomState.new.addStroke a).2.addStroke b).2.addStroke c).2.undo.2.addStroke
        d).2).strokes = [a, b, d]) := by
  have hnot : ¬ Int.ofNat (s.strokes ++ [x]).length > s.maxHistorySize := by
    simp only [List.length_append, List.length_singleton, Int.ofNat_eq_coe, Nat.cast_add,
      Nat.cast_one] at *
    omega
  have hst : (s.addStroke x).2 =
      { s with history := s.strokes ++ [x],
               historyPointer := Int.ofNat (s.strokes ++ [x]).length - 1 } := by
    rw [addStroke_eq s x hv, if_neg hnot]
  refine ⟨?_, ?_, ?_, ?_, ?_⟩
  · rw [hst]
  · have hv2 : PointerValid (s.addStroke x).2 := by
      rw [hst]
      constructor <;> simp only [Int.ofNat_eq_coe] <;> omega
    rw [strokes_eq_take _ hv2, hst]
    have : (Int.ofNat (s.strokes ++ [x]).length - 1 + 1).toNat = (s.strokes ++ [x]).length := by
      simp only [Int.ofNat_eq_coe]
      omega
    simp only [this, List.take_length]
  · rw [hst]
  · rw [addStroke_eq s x hv]
  · intro a b c d
    simp [RoomState.new, addStroke, undo, strokes, canUndo, jsSlice, jsSliceFrom, sliceIndex]

/-- Witness of C1 on the state with history `[1]` and nothing visible. -/
theorem C1_addStroke_truncate_then_append_witness :
    PointerValid undoneOne ∧ Int.ofNat undoneOne.strokes.length < undoneOne.maxHistorySize ∧
    (undoneOne.addStroke 9).2.history = undoneOne.strokes ++ [9] ∧
    (undoneOne.addStroke 9).2.history = [9] :=
  ⟨by decide, by decide,
    (C1_addStroke_truncate_then_append undoneOne 9 (by decide) (by decide)).1, by decide⟩

/-- C2: in every state reachable from a freshly constructed `RoomState` by
`addStroke`, `undo`, `redo` and `clear`, `historyPointer` lies in
`[-1, history.length - 1]`. -/
theorem C2_pointer_range (s : RoomState σ) (hr : Reachable s) :
    -1 ≤ s.historyPointer ∧ s.historyPointer ≤ Int.ofNat s.history.length - 1 :=
  (inv_of_reachable s hr).2.1

/-- Witness of C2 on the state with one stroke committed and undone. -/
theorem C2_pointer_range_witness :
    Reachable undoneOne ∧
    (-1 ≤ undoneOne.historyPointer ∧
      undoneOne.historyPointer ≤ Int.ofNat undoneOne.history.length - 1) :=
  ⟨Reachable.undo _ (Reachable.addStroke _ 1 Reachable.new),
    C2_pointer_range undoneOne (Reachable.undo _ (Reachable.addStroke _ 1 Reachable.new))⟩

/-- C3: in every state reachable from a freshly constructed `RoomState` by
`addStroke`, `undo`, `redo` and `clear`, `history.length` is at most
`maxHistorySize`, which is the default `1000`. -/
theorem C3_bounded_history (s : RoomState σ) (hr : Reachable s) :
    Int.ofNat s.history.length ≤ s.maxHistorySize ∧ s.maxHistorySize = 1000 :=
  ⟨(inv_of_reachable s hr).2.2, (inv_of_reachable s hr).1⟩

/-- Witness of C3 on the state after two commits and a redo. -/
theorem C3_bounded_history_witness :
    Reachable (((RoomState.new : RoomState Nat).addStroke 3).2.addStroke 4).2.redo.2 ∧
    Int.ofNat (((RoomState.new : RoomState Nat).addStroke 3).2.addStroke 4).2.redo.2.history.length
      ≤ (((RoomState.new : RoomState Nat).addStroke 3).2.addStroke 4).2.redo.2.maxHistorySize :=
  ⟨Reachable.redo _ (Reachable.addStroke _ 4 (Reachable.addStroke _ 3 Reachable.new)),
    (C3_bounded_history _
      (Reachable.redo _ (Reachable.addStroke _ 4 (Reachable.addStroke _ 3 Reachable.new)))).1⟩

/-- C4 as stated fails: the state with history `[1]` and pointer `-1` is
reachable and has a non-empty history, its `undo()` fails, and the `redo()`
that follows makes `[1]` visible where nothing was visible before. -/
theorem C4_undo_redo_counterexample :
    Reachable undoneOne ∧ undoneOne.history ≠ [] ∧ undoneOne.strokes = [] ∧
    undoneOne.undo.1.success = false ∧ undoneOne.undo.2.redo.2.strokes = [1] ∧
    undoneOne.undo.2.redo.2.strokes ≠ undoneOne.strokes :=
  ⟨Reachable.undo _ (Reachable.addStroke _ 1 Reachable.new),
    by decide, by decide, by decide, by decide, by decide⟩

/-- C4, amended: for every reachable state whose visible strokes are
non-empty, `undo()` followed immediately by `redo()` leaves the visible
strokes equal to their value before the undo. -/
theorem C4_undo_redo_roundtrip (s : RoomState σ) (hr : Reachable s) (hne : s.strokes ≠ []) :
    s.undo.2.redo.2.strokes = s.strokes := by
  obtain ⟨_, ⟨h1, h2⟩, _⟩ := inv_of_reachable s hr
  have hp : 0 ≤ s.historyPointer := by
    by_contra hc
    apply hne
    unfold strokes
    rw [if_pos (by omega)]
  rw [undo_of_nonneg s hp]
  rw [redo_of_lt _ (by simp only [Int.ofNat_eq_coe] at *; omega)]
  simp only [sub_add_cancel]

/-- Witness of C4 (amended) on the state after one commit. -/
theorem C4_undo_redo_roundtrip_witness :
    Reachable ((RoomState.new : RoomState Nat).addStroke 5).2 ∧
    ((RoomState.new : RoomState Nat).addStroke 5).2.strokes ≠ [] ∧
    ((RoomState.new : RoomState Nat).addStroke 5).2.undo.2.redo.2.strokes =
      ((RoomState.new : RoomState Nat).addStroke 5).2.strokes :=
  ⟨Reachable.addStroke _ 5 Reachable.new, by decide,
    C4_undo_redo_roundtrip _ (Reachable.addStroke _ 5 Reachable.new) (by decide)⟩

/-- C5: when `history` holds exactly `maxHistorySize` strokes (cap at least
`1`) and the pointer is at the last index, `addStroke x` removes exactly the
oldest stroke: the new history is the old one without its first element
followed by `x`, `historyPointer` stays at `cap - 1` and is valid, and the
visible strokes have length `cap`. -/
theorem C5_cap_eviction (s : RoomState σ) (x : σ) (hcap : 1 ≤ s.maxHistorySize)
    (hfull : Int.ofNat s.history.length = s.maxHistorySize)
    (hlast : s.historyPointer = Int.ofNat s.history.length - 1) :
    (s.addStroke x).2.history = s.history.tail ++ [x] ∧
    (s.addStroke x).2.historyPointer = s.maxHistorySize - 1 ∧
    PointerValid (s.addStroke x).2 ∧
    Int.ofNat (s.addStroke x).2.strokes.length = s.maxHistorySize ∧
    (s.addStroke x).2.maxHistorySize = s.maxHistorySize := by
  have hv : PointerValid s := by
    constructor <;> simp only [Int.ofNat_eq_coe] at * <;> omega
  have hs : s.strokes = s.history := by
    rw [strokes_eq_take s hv]
    have : (s.historyPointer + 1).toNat = s.history.length := by
      simp only [Int.ofNat_eq_coe] at *
      omega
    rw [this, List.take_length]
  have hgt : Int.ofNat (s.strokes ++ [x]).length > s.maxHistorySize := by
    rw [hs]
    simp only [List.length_append, List.length_singleton, Int.ofNat_eq_coe, Nat.cast_add,
      Nat.cast_one] at *
    omega
  have he : Int.ofNat (s.history ++ [x]).length - s.maxHistorySize = 1 := by
    simp only [List.length_append, List.length_singleton, Int.ofNat_eq_coe, Nat.cast_add,
      Nat.cast_one] at *
    omega
  have hne : s.history ≠ [] := by
    intro h0
    rw [h0] at hfull
    simp only [List.length_nil, Int.ofNat_eq_coe, Nat.cast_zero] at hfull
    omega
  have hst : (s.addStroke x).2 =
      { s with history := s.history.tail ++ [x],
               historyPointer := s.maxHistorySize - 1 } := by
    rw [addStroke_eq s x hv, if_pos hgt, hs, he, jsSliceFrom_of_nonneg _ 1 (by omega)]
    simp only [Int.toNat_one, List.drop_one]
    rw [List.tail_append_of_ne_nil hne]
  have hlen : ((s.history.tail ++ [x]).length : Int) = s.maxHistorySize := by
    have hpos : 0 < s.history.length := List.length_pos.mpr hne
    simp only [List.length_append, List.length_singleton, List.length_tail, Int.ofNat_eq_coe,
      Nat.cast_add, Nat.cast_one] at *
    omega
  have hv2 : PointerValid (s.addStroke x).2 := by
    rw [hst]
    constructor <;> simp only [Int.ofNat_eq_coe] <;> omega
  refine ⟨by rw [hst], by rw [hst], hv2, ?_, by rw [hst]⟩
  rw [strokes_length _ hv2, hst]
  simp only [sub_add_cancel]

/-- Witness of C5 on a full room with cap `2`. -/
theorem C5_cap_eviction_witness :
    1 ≤ fullTwo.maxHistorySize ∧ Int.ofNat fullTwo.history.length = fullTwo.maxHistorySize ∧
    fullTwo.historyPointer = Int.ofNat fullTwo.history.length - 1 ∧
    (fullTwo.addStroke 3).2.history = fullTwo.history.tail ++ [3] ∧
    (fullTwo.addStroke 3).2.history = [2, 3] :=
  ⟨by decide, by decide, by decide,
    (C5_cap_eviction fullTwo 3 (by decide) (by decide) (by decide)).1, by decide⟩

/-- C6: starting from a fresh `RoomState`, or from the state right after
`clear()` of a state with a non-negative cap, after the `n` commits of any list
of `n` strokes and nothing else the visible strokes have length
`min(n, maxHistorySize)`. -/
theorem C6_commit_count (s : RoomState σ) (hc : 0 ≤ s.maxHistorySize) (xs : List σ) :
    Int.ofNat ((RoomState.new : RoomState σ).addStrokes xs).strokes.length =
      min (Int.ofNat xs.length) (RoomState.new : RoomState σ).maxHistorySize ∧
    Int.ofNat (s.clear.addStrokes xs).strokes.length =
      min (Int.ofNat xs.length) s.maxHistorySize := by
  constructor
  · obtain ⟨_, b2, b3⟩ := addStrokes_count (1000 : Int) (by omega) xs
      (RoomState.new : RoomState σ) 0 rfl rfl rfl
    have hv : PointerValid ((RoomState.new : RoomState σ).addStrokes xs) := by
      constructor <;> simp only [Int.ofNat_eq_coe] at * <;> omega
    rw [strokes_length _ hv, b2]
    simp only [Nat.zero_add, Int.ofNat_eq_coe, RoomState.new] at *
    omega
  · obtain ⟨_, b2, b3⟩ := addStrokes_count s.maxHistorySize hc xs s.clear 0 rfl rfl
      (by simp only [clear, List.length_nil, Int.ofNat_eq_coe, Nat.cast_zero]; omega)
    have hv : PointerValid (s.clear.addStrokes xs) := by
      constructor <;> simp only [Int.ofNat_eq_coe] at * <;> omega
    rw [strokes_length _ hv, b2]
    simp only [Nat.zero_add, Int.ofNat_eq_coe] at *
    omega

/-- Witness of C6: three commits into a cleared room with cap `2`. -/
theorem C6_commit_count_witness :
    0 ≤ fullTwo.maxHistorySize ∧
    Int.ofNat (fullTwo.clear.addStrokes [7, 8, 9]).strokes.length =
      min (Int.ofNat [7, 8, 9].length) fullTwo.maxHistorySize ∧
    (fullTwo.clear.addStrokes [7, 8, 9]).strokes = [8, 9] :=
  ⟨by decide, (C6_commit_count fullTwo (by decide) [7, 8, 9]).2, by decide⟩

/-- C7: in every reachable state where `canRedo()` is true, after
`addStroke x` `canRedo()` is false. -/
theorem C7_commit_kills_redo (s : RoomState σ) (x : σ) (hr : Reachable s)
    (hredo : s.canRedo = true) : (s.addStroke x).2.canRedo = false := by
  have _ := hredo
  obtain ⟨hc, hv, _⟩ := inv_of_reachable s hr
  obtain ⟨a1, _, _⟩ := addStroke_last s x hv (by omega)
  unfold canRedo
  rw [a1]
  simp

/-- Witness of C7 on the state with one stroke committed and undone. -/
theorem C7_commit_kills_redo_witness :
    Reachable undoneOne ∧ undoneOne.canRedo = true ∧
    (undoneOne.addStroke 2).2.canRedo = false :=
  ⟨Reachable.undo _ (Reachable.addStroke _ 1 Reachable.new), by decide,
    C7_commit_kills_redo undoneOne 2
      (Reachable.undo _ (Reachable.addStroke _ 1 Reachable.new)) (by decide)⟩

/-- C8: in every reachable state, `canUndo()` is false if and only if the
visible strokes are empty. -/
theorem C8_canUndo_iff_visible (s : RoomState σ) (hr : Reachable s) :
    s.canUndo = false ↔ s.strokes = [] := by
  obtain ⟨_, hv, _⟩ := inv_of_reachable s hr
  have hl := strokes_length s hv
  unfold canUndo
  constructor
  · intro h
    have hneg : s.historyPointer < 0 := by
      by_contra hc
      simp [not_lt.mp hc] at h
    unfold strokes
    rw [if_pos hneg]
  · intro h
    rw [h] at hl
    simp only [List.length_nil, Int.ofNat_eq_coe, Nat.cast_zero] at hl
    have : ¬ s.historyPointer ≥ 0 := by omega
    simp [this]

/-- Witness of C8 on the state after one commit. -/
theorem C8_canUndo_iff_visible_witness :
    Reachable ((RoomState.new : RoomState Nat).addStroke 5).2 ∧
    (((RoomState.new : RoomState Nat).addStroke 5).2.canUndo = false ↔
      ((RoomState.new : RoomState Nat).addStroke 5).2.strokes = []) :=
  ⟨Reachable.addStroke _ 5 Reachable.new,
    C8_canUndo_iff_visible _ (Reachable.addStroke _ 5 Reachable.new)⟩

/-- C9: for a pointer that is at least `-1`, `undo()` returns the failure
object (success false, reason "Nothing to undo") exactly when
`historyPointer` is `-1`; a failed `undo()` leaves `history`,
`historyPointer` and the cap as they were; `undo()` is a total function (it
raises nothing); and on a fresh `RoomState` it fails and changes nothing. -/
theorem C9_undo_failure_atomic (s : RoomState σ) (hlow : -1 ≤ s.historyPointer) :
    (s.undo.1.success = false ↔ s.historyPointer = -1) ∧
    (s.undo.1.success = false →
      s.undo.1.reason = some "Nothing to undo" ∧ s.undo.1.strokes = none ∧
      s.undo.2.history = s.history ∧ s.undo.2.historyPointer = s.historyPointer ∧
      s.undo.2 = s) ∧
    ((RoomState.new : RoomState σ).undo.1.success = false ∧
      (RoomState.new : RoomState σ).undo.1.reason = some "Nothing to undo" ∧
      (RoomState.new : RoomState σ).undo.2 = RoomState.new) := by
  refine ⟨?_, ?_, ?_⟩
  · by_cases h : 0 ≤ s.historyPointer
    · rw [undo_of_nonneg s h]
      constructor
      · intro hf
        simp at hf
      · intro hm
        omega
    · rw [undo_of_neg s (by omega)]
      constructor
      · intro _
        omega
      · intro _
        rfl
  · by_cases h : 0 ≤ s.historyPointer
    · rw [undo_of_nonneg s h]
      intro hf
      simp at hf
    · rw [undo_of_neg s (by omega)]
      intro _
      exact ⟨rfl, rfl, rfl, rfl, rfl⟩
  · rw [undo_of_neg (RoomState.new : RoomState σ) (by simp [RoomState.new])]
    exact ⟨rfl, rfl, rfl⟩

/-- Witness of C9 on the state with one stroke committed and undone. -/
theorem C9_undo_failure_atomic_witness :
    -1 ≤ undoneOne.historyPointer ∧
    (undoneOne.undo.1.success = false ↔ undoneOne.historyPointer = -1) ∧
    undoneOne.undo.1.success = false ∧ undoneOne.undo.2.history = [1] :=
  ⟨by decide, (C9_undo_failure_atomic undoneOne (by decide)).1, by decide, by decide⟩

/-- C10: in every reachable state with `historyPointer >= 0`, `undo()`
reports success, decreases `historyPointer` by exactly one, and the strokes it
returns are the new visible strokes, which are the previous visible strokes
with the last one removed. -/
theorem C10_undo_success (s : RoomState σ) (hr : Reachable s) (hp : 0 ≤ s.historyPointer) :
    s.undo.1.success = true ∧
    s.undo.2.historyPointer = s.historyPointer - 1 ∧
    s.undo.1.strokes = some s.undo.2.strokes ∧
    s.undo.2.strokes = s.strokes.dropLast := by
  obtain ⟨_, hv, _⟩ := inv_of_reachable s hr
  have hv2 : PointerValid ({ s with historyPointer := s.historyPointer - 1 } : RoomState σ) := by
    obtain ⟨h1, h2⟩ := hv
    constructor <;> simp only [] <;> omega
  rw [undo_of_nonneg s hp]
  refine ⟨rfl, rfl, rfl, ?_⟩
  rw [strokes_eq_take _ hv2, strokes_eq_take s hv, List.dropLast_eq_take, List.take_take]
  obtain ⟨h1, h2⟩ := hv
  congr 1
  simp only [List.length_take, sub_add_cancel, Int.ofNat_eq_coe] at *
  omega

/-- Witness of C10 on the state after two commits. -/
theorem C10_undo_success_witness :
    Reachable (((RoomState.new : RoomState Nat).addStroke 3).2.addStroke 4).2 ∧
    0 ≤ (((RoomState.new : RoomState Nat).addStroke 3).2.addStroke 4).2.historyPointer ∧
    (((RoomState.new : RoomState Nat).addStroke 3).2.addStroke 4).2.undo.2.strokes =
      (((RoomState.new : RoomState Nat).addStroke 3).2.addStroke 4).2.strokes.dropLast ∧
    (((RoomState.new : RoomState Nat).addStroke 3).2.addStroke 4).2.undo.2.strokes = [3] :=
  ⟨Reachable.addStroke _ 4 (Reachable.addStroke _ 3 Reachable.new), by decide,
    (C10_undo_success _ (Reachable.addStroke _ 4 (Reachable.addStroke _ 3 Reachable.new))
      (by decide)).2.2.2, by decide⟩

/-! ## Lemmas on `JSMap` -/

section MapLemmas

variable {κ : Type u} {ν : Type v} [DecidableEq κ]

theorem lookupEntry_cons_eq (e : κ × ν) (es : List (κ × ν)) (k : κ) (h : e.1 = k) :
    lookupEntry (e :: es) k = some e.2 := by
  simp only [lookupEntry, h, if_true]

theorem lookupEntry_cons_ne (e : κ × ν) (es : List (κ × ν)) (k : κ) (h : e.1 ≠ k) :
    lookupEntry (e :: es) k = lookupEntry es k := by
  simp only [lookupEntry, h, if_false]

theorem setEntry_cons_eq (e : κ × ν) (es : List (κ × ν)) (k : κ) (x : ν) (h : e.1 = k) :
    setEntry (e :: es) k x = (k, x) :: es := by
  simp only [setEntry, h, if_true]

theorem setEntry_cons_ne (e : κ × ν) (es : List (κ × ν)) (k : κ) (x : ν) (h : e.1 ≠ k) :
    setEntry (e :: es) k x = e :: setEntry es k x := by
  simp only [setEntry, h, if_false]

theorem deleteEntry_cons_eq (e : κ × ν) (es : List (κ × ν)) (k : κ) (h : e.1 = k) :
    deleteEntry (e :: es) k = deleteEntry es k := by
  simp [deleteEntry, List.filter_cons, h]

theorem deleteEntry_cons_ne (e : κ × ν) (es : List (κ × ν)) (k : κ) (h : e.1 ≠ k) :
    deleteEntry (e :: es) k = e :: deleteEntry es k := by
  simp [deleteEntry, List.filter_cons, h]

theorem lookupEntry_eq_none_iff (es : List (κ × ν)) (k : κ) :
    lookupEntry es k = none ↔ k ∉ es.map Prod.fst := by
  induction es with
  | nil => simp [lookupEntry]
  | cons e es ih =>
    by_cases h : e.1 = k
    · rw [lookupEntry_cons_eq e es k h]
      simp [h]
    · have h2 : ¬ k = e.1 := fun h3 => h h3.symm
      rw [lookupEntry_cons_ne e es k h, ih]
      simp only [List.map_cons, List.mem_cons, h2, false_or]

theorem lookupEntry_setEntry_same (es : List (κ × ν)) (k : κ) (x : ν) :
    lookupEntry (setEntry es k x) k = some x := by
  induction es with
  | nil => simp [setEntry, lookupEntry]
  | cons e es ih =>
    by_cases h : e.1 = k
    · rw [setEntry_cons_eq e es k x h, lookupEntry_cons_eq _ _ _ rfl]
    · rw [setEntry_cons_ne e es k x h, lookupEntry_cons_ne e _ k h, ih]

theorem lookupEntry_setEntry_ne (es : List (κ × ν)) (k k' : κ) (x : ν) (hne : k' ≠ k) :
    lookupEntry (setEntry es k x) k' = lookupEntry es k' := by
  have hne2 : k ≠ k' := fun h => hne h.symm
  induction es with
  | nil =>
    show lookupEntry [(k, x)] k' = lookupEntry [] k'
    rw [lookupEntry_cons_ne (k, x) [] k' hne2]
  | cons e es ih =>
    by_cases h : e.1 = k
    · have h3 : e.1 ≠ k' := fun h4 => hne2 (h ▸ h4)
      rw [setEntry_cons_eq e es k x h, lookupEntry_cons_ne (k, x) es k' hne2,
        lookupEntry_cons_ne e es k' h3]
    · rw [setEntry_cons_ne e es k x h]
      by_cases h5 : e.1 = k'
      · rw [lookupEntry_cons_eq e _ k' h5, lookupEntry_cons_eq e _ k' h5]
      · rw [lookupEntry_cons_ne e _ k' h5, lookupEntry_cons_ne e _ k' h5, ih]

theorem keys_deleteEntry (es : List (κ × ν)) (k : κ) :
    k ∉ (deleteEntry es k).map Prod.fst := by
  induction es with
  | nil => simp [deleteEntry]
  | cons e es ih =>
    by_cases h : e.1 = k
    · rw [deleteEntry_cons_eq e es k h]
      exact ih
    · have h2 : ¬ k = e.1 := fun h3 => h h3.symm
      rw [deleteEntry_cons_ne e es k h]
      simp only [List.map_cons, List.mem_cons, h2, false_or]
      exact ih

theorem lookupEntry_deleteEntry_same (es : List (κ × ν)) (k : κ) :
    lookupEntry (deleteEntry es k) k = none := by
  rw [lookupEntry_eq_none_iff]
  exact keys_deleteEntry es k

theorem lookupEntry_deleteEntry_ne (es : List (κ × ν)) (k k' : κ) (hne : k' ≠ k) :
    lookupEntry (deleteEntry es k) k' = lookupEntry es k' := by
  induction es with
  | nil => rfl
  | cons e es ih =>
    by_cases h : e.1 = k
    · have h3 : e.1 ≠ k' := fun h4 => hne (h4 ▸ h)
      rw [deleteEntry_cons_eq e es k h, lookupEntry_cons_ne e es k' h3, ih]
    · rw [deleteEntry_cons_ne e es k h]
      by_cases h5 : e.1 = k'
      · rw [lookupEntry_cons_eq e _ k' h5, lookupEntry_cons_eq e _ k' h5]
      · rw [lookupEntry_cons_ne e _ k' h5, lookupEntry_cons_ne e _ k' h5, ih]

theorem setEntry_setEntry (es : List (κ × ν)) (k : κ) (x y : ν) :
    setEntry (setEntry es k x) k y = setEntry es k y := by
  induction es with
  | nil =>
    show setEntry [(k, x)] k y = [(k, y)]
    rw [setEntry_cons_eq (k, x) [] k y rfl]
  | cons e es ih =>
    by_cases h : e.1 = k
    · rw [setEntry_cons_eq e es k x h, setEntry_cons_eq e es k y h,
        setEntry_cons_eq (k, x) es k y rfl]
    · rw [setEntry_cons_ne e es k x h, setEntry_cons_ne e es k y h,
        setEntry_cons_ne e _ k y h, ih]

theorem length_setEntry_of_some (es : List (κ × ν)) (k : κ) (x y : ν)
    (h : lookupEntry es k = some y) : (setEntry es k x).length = es.length := by
  induction es with
  | nil => simp [lookupEntry] at h
  | cons e es ih =>
    by_cases h1 : e.1 = k
    · rw [setEntry_cons_eq e es k x h1]
      rfl
    · rw [lookupEntry_cons_ne e es k h1] at h
      rw [setEntry_cons_ne e es k x h1, List.length_cons, List.length_cons, ih h]

theorem length_setEntry_of_none (es : List (κ × ν)) (k : κ) (x : ν)
    (h : lookupEntry es k = none) : (setEntry es k x).length = es.length + 1 := by
  induction es with
  | nil => rfl
  | cons e es ih =>
    by_cases h1 : e.1 = k
    · rw [lookupEntry_cons_eq e es k h1] at h
      simp at h
    · rw [lookupEntry_cons_ne e es k h1] at h
      rw [setEntry_cons_ne e es k x h1, List.length_cons, List.length_cons, ih h]

theorem deleteEntry_of_none (es : List (κ × ν)) (k : κ) (h : lookupEntry es k = none) :
    deleteEntry es k = es := by
  induction es with
  | nil => rfl
  | cons e es ih =>
    by_cases h1 : e.1 = k
    · rw [lookupEntry_cons_eq e es k h1] at h
      simp at h
    · rw [lookupEntry_cons_ne e es k h1] at h
      rw [deleteEntry_cons_ne e es k h1, ih h]

theorem length_deleteEntry_of_some (es : List (κ × ν)) (k : κ) (y : ν)
    (hnd : (es.map Prod.fst).Nodup) (h : lookupEntry es k = some y) :
    (deleteEntry es k).length + 1 = es.length := by
  induction es with
  | nil => simp [lookupEntry] at h
  | cons e es ih =>
    rw [List.map_cons, List.nodup_cons] at hnd
    by_cases h1 : e.1 = k
    · have hnone : lookupEntry es k = none := by
        rw [lookupEntry_eq_none_iff]
        exact h1 ▸ hnd.1
      rw [deleteEntry_cons_eq e es k h1, deleteEntry_of_none es k hnone, List.length_cons]
    · rw [lookupEntry_cons_ne e es k h1] at h
      rw [deleteEntry_cons_ne e es k h1, List.length_cons, List.length_cons, ih hnd.2 h]

theorem mem_setEntry (es : List (κ × ν)) (k : κ) (x : ν) (e : κ × ν)
    (h : e ∈ setEntry es k x) : e ∈ es ∨ e = (k, x) := by
  induction es with
  | nil =>
    right
    simpa [setEntry] using h
  | cons e0 es ih =>
    by_cases h1 : e0.1 = k
    · rw [setEntry_cons_eq e0 es k x h1, List.mem_cons] at h
      rcases h with h | h
      · exact Or.inr h
      · exact Or.inl (List.mem_cons_of_mem _ h)
    · rw [setEntry_cons_ne e0 es k x h1, List.mem_cons] at h
      rcases h with h | h
      · exact Or.inl (h ▸ List.mem_cons_self _ _)
      · rcases ih h with h2 | h2
        · exact Or.inl (List.mem_cons_of_mem _ h2)
        · exact Or.inr h2

theorem mem_deleteEntry (es : List (κ × ν)) (k : κ) (e : κ × ν)
    (h : e ∈ deleteEntry es k) : e ∈ es ∧ e.1 ≠ k := by
  unfold deleteEntry at h
  rw [List.mem_filter] at h
  exact ⟨h.1, by simpa using h.2⟩

theorem mem_of_lookupEntry (es : List (κ × ν)) (k : κ) (y : ν)
    (h : lookupEntry es k = some y) : (k, y) ∈ es := by
  induction es with
  | nil => simp [lookupEntry] at h
  | cons e es ih =>
    by_cases h1 : e.1 = k
    · rw [lookupEntry_cons_eq e es k h1] at h
      have h2 : e.2 = y := Option.some.inj h
      have h3 : e = (k, y) := Prod.ext h1 h2
      exact h3 ▸ List.mem_cons_self _ _
    · rw [lookupEntry_cons_ne e es k h1] at h
      exact List.mem_cons_of_mem _ (ih h)

theorem setEntry_of_lookupEntry (es : List (κ × ν)) (k : κ) (y : ν)
    (h : lookupEntry es k = some y) : setEntry es k y = es := by
  induction es with
  | nil => simp [lookupEntry] at h
  | cons e es ih =>
    by_cases h1 : e.1 = k
    · rw [lookupEntry_cons_eq e es k h1] at h
      have h2 : e.2 = y := Option.some.inj h
      rw [setEntry_cons_eq e es k y h1]
      congr 1
      exact (Prod.ext h1 h2).symm
    · rw [lookupEntry_cons_ne e es k h1] at h
      rw [setEntry_cons_ne e es k y h1, ih h]

end MapLemmas

namespace JSMap

variable {κ : Type u} {ν : Type v}

theorem eq_of_entries {m1 m2 : JSMap κ ν} (h : m1.entries = m2.entries) : m1 = m2 := by
  cases m1
  cases m2
  cases h
  rfl

variable [DecidableEq κ]

theorem get_empty (k : κ) : (JSMap.empty : JSMap κ ν).get k = none := rfl

theorem get_set_same (m : JSMap κ ν) (k : κ) (x : ν) : (m.set k x).get k = some x :=
  lookupEntry_setEntry_same m.entries k x

theorem get_set_ne (m : JSMap κ ν) (k k' : κ) (x : ν) (hne : k' ≠ k) :
    (m.set k x).get k' = m.get k' :=
  lookupEntry_setEntry_ne m.entries k k' x hne

theorem get_delete_same (m : JSMap κ ν) (k : κ) : (m.delete k).2.get k = none :=
  lookupEntry_deleteEntry_same m.entries k

theorem get_delete_ne (m : JSMap κ ν) (k k' : κ) (hne : k' ≠ k) :
    (m.delete k).2.get k' = m.get k' :=
  lookupEntry_deleteEntry_ne m.entries k k' hne

theorem set_set (m : JSMap κ ν) (k : κ) (x y : ν) : (m.set k x).set k y = m.set k y :=
  eq_of_entries (setEntry_setEntry m.entries k x y)

theorem set_of_get (m : JSMap κ ν) (k : κ) (y : ν) (h : m.get k = some y) : m.set k y = m :=
  eq_of_entries (setEntry_of_lookupEntry m.entries k y h)

theorem delete_of_get_none (m : JSMap κ ν) (k : κ) (h : m.get k = none) :
    (m.delete k).2 = m :=
  eq_of_entries (deleteEntry_of_none m.entries k h)

theorem size_set_of_get (m : JSMap κ ν) (k : κ) (x y : ν) (h : m.get k = some y) :
    (m.set k x).size = m.size :=
  length_setEntry_of_some m.entries k x y h

theorem size_delete_of_get (m : JSMap κ ν) (k : κ) (y : ν) (h : m.get k = some y) :
    (m.delete k).2.size + 1 = m.size :=
  length_deleteEntry_of_some m.entries k y m.nodup h

theorem mem_keys_iff (m : JSMap κ ν) (k : κ) : k ∈ m.keys ↔ (m.get k).isSome = true := by
  have h := lookupEntry_eq_none_iff m.entries k
  unfold keys get
  cases hl : lookupEntry m.entries k with
  | none =>
    rw [hl] at h
    simp only [true_iff] at h
    simp [h]
  | some y =>
    rw [hl] at h
    simp only [false_iff, not_not, reduceCtorEq] at h
    simp [h]

theorem size_pos_of_get (m : JSMap κ ν) (k : κ) (y : ν) (h : m.get k = some y) :
    m.size ≠ 0 := by
  have hm := mem_of_lookupEntry m.entries k y h
  unfold size
  intro h0
  rw [List.length_eq_zero.mp h0] at hm
  simp at hm

end JSMap


/-! ## Further claims on `RoomState` -/

/-- C11: for every state, whether the call succeeds or fails, `undo()` and
`redo()` leave the `history` array as it was (same length, same elements in
the same order), and the cap too. -/
theorem C11_undo_redo_keep_history (s : RoomState σ) :
    s.undo.2.history = s.history ∧ s.redo.2.history = s.history ∧
    s.undo.2.history.length = s.history.length ∧
    s.redo.2.history.length = s.history.length ∧
    s.undo.2.maxHistorySize = s.maxHistorySize ∧
    s.redo.2.maxHistorySize = s.maxHistorySize := by
  have hu : s.undo.2.history = s.history ∧ s.undo.2.maxHistorySize = s.maxHistorySize := by
    unfold undo
    split_ifs <;> exact ⟨rfl, rfl⟩
  have hd : s.redo.2.history = s.history ∧ s.redo.2.maxHistorySize = s.maxHistorySize := by
    unfold redo
    split_ifs <;> exact ⟨rfl, rfl⟩
  exact ⟨hu.1, hd.1, by rw [hu.1], by rw [hd.1], hu.2, hd.2⟩

/-- C12: in every reachable state, `redo()` returns the failure object exactly
when `historyPointer` is `history.length - 1`, and then the state is
unchanged; otherwise it reports success, increases `historyPointer` by
exactly one, and the strokes it returns are the new visible strokes, which are
the previous visible strokes followed by the stroke at the new pointer (the
`redoneStroke`). -/
theorem C12_redo_contract (s : RoomState σ) (hr : Reachable s) :
    (s.redo.1.success = false ↔ s.historyPointer = Int.ofNat s.history.length - 1) ∧
    (s.redo.1.success = false →
      s.redo.1.reason = some "Nothing to redo" ∧ s.redo.1.strokes = none ∧ s.redo.2 = s) ∧
    (s.historyPointer ≠ Int.ofNat s.history.length - 1 →
      s.redo.1.success = true ∧
      s.redo.2.historyPointer = s.historyPointer + 1 ∧
      s.redo.1.strokes = some s.redo.2.strokes ∧
      ∃ x, jsIndex s.history (s.historyPointer + 1) = some x ∧
        s.redo.1.redoneStroke = some x ∧ s.redo.2.strokes = s.strokes ++ [x]) := by
  obtain ⟨_, hv, _⟩ := inv_of_reachable s hr
  obtain ⟨h1, h2⟩ := hv
  by_cases h : s.historyPointer < Int.ofNat s.history.length - 1
  · have hne : s.historyPointer ≠ Int.ofNat s.history.length - 1 := by omega
    have hv2 : PointerValid
        ({ s with historyPointer := s.historyPointer + 1 } : RoomState σ) := by
      constructor <;> simp only [] <;> omega
    rw [redo_of_lt s h]
    refine ⟨⟨fun hf => by simp at hf, fun he => absurd he hne⟩, fun hf => by simp at hf, ?_⟩
    intro _
    refine ⟨rfl, rfl, rfl, ?_⟩
    have hlt : (s.historyPointer + 1).toNat < s.history.length := by
      simp only [Int.ofNat_eq_coe] at h
      omega
    refine ⟨s.history.get ⟨(s.historyPointer + 1).toNat, hlt⟩, ?_, ?_, ?_⟩
    · unfold jsIndex
      rw [if_neg (by omega), List.get?_eq_get hlt]
    · show jsIndex s.history (s.historyPointer + 1) = _
      unfold jsIndex
      rw [if_neg (by omega), List.get?_eq_get hlt]
    · rw [strokes_eq_take _ hv2, strokes_eq_take s ⟨h1, h2⟩]
      have hn : (s.historyPointer + 1 + 1).toNat = (s.historyPointer + 1).toNat + 1 := by omega
      simp only [hn, List.take_succ, List.getElem?_eq_getElem hlt, Option.toList,
        List.get_eq_getElem]
  · have he : s.historyPointer = Int.ofNat s.history.length - 1 := by omega
    rw [redo_of_not_lt s h]
    exact ⟨⟨fun _ => he, fun _ => rfl⟩, fun _ => ⟨rfl, rfl, rfl⟩, fun hne => absurd he hne⟩

/-- Witness of C12 on the state with history `[3, 4]` and pointer `0`. -/
theorem C12_redo_contract_witness :
    Reachable twoUndone ∧
    (twoUndone.redo.1.success = false ↔
      twoUndone.historyPointer = Int.ofNat twoUndone.history.length - 1) ∧
    twoUndone.redo.2.strokes = [3, 4] :=
  ⟨Reachable.undo _ (Reachable.addStroke _ 4 (Reachable.addStroke _ 3 Reachable.new)),
    (C12_redo_contract twoUndone
      (Reachable.undo _ (Reachable.addStroke _ 4 (Reachable.addStroke _ 3 Reachable.new)))).1,
    by decide⟩

/-- C13: for every state, after `clear()` the history is empty,
`historyPointer` is `-1`, the visible strokes are empty, `canUndo()` and
`canRedo()` are false, and a following `undo()` or `redo()` fails and changes
nothing. -/
theorem C13_clear_resets (s : RoomState σ) :
    s.clear.history = [] ∧ s.clear.historyPointer = -1 ∧ s.clear.strokes = [] ∧
    s.clear.canUndo = false ∧ s.clear.canRedo = false ∧
    s.clear.undo.1.success = false ∧ s.clear.redo.1.success = false ∧
    s.clear.undo.2 = s.clear ∧ s.clear.redo.2 = s.clear := by
  have hu := undo_of_neg s.clear (by simp [clear])
  have hd := redo_of_not_lt s.clear (by simp [clear])
  refine ⟨rfl, rfl, ?_, ?_, ?_, ?_, ?_, ?_, ?_⟩
  · simp [strokes, clear]
  · simp [canUndo, clear]
  · simp [canRedo, clear]
  · rw [hu]
  · rw [hd]
  · rw [hu]
  · rw [hd]

/-- C14 as stated fails for a negative cap: on the empty room with cap `-1`
the pointer is valid, and after `addStroke 5` the history is empty and
`historyPointer` is `-2`. -/
theorem C14_negative_cap_counterexample :
    PointerValid negCap ∧ (negCap.addStroke 5).2.history = [] ∧
    (negCap.addStroke 5).2.historyPointer = -2 ∧
    ¬ (-1 ≤ (negCap.addStroke 5).2.historyPointer) := by
  decide

/-- C14, amended: for every cap that is at least `0` (including `0`, where all
content is dropped) and every state with a valid pointer, after `addStroke x`
`historyPointer` is at least `-1` and at most `history.length - 1`; with cap
`0` the history is empty and the pointer is `-1`. -/
theorem C14_pointer_valid_any_cap (s : RoomState σ) (x : σ) (hv : PointerValid s)
    (hc : 0 ≤ s.maxHistorySize) :
    -1 ≤ (s.addStroke x).2.historyPointer ∧
    (s.addStroke x).2.historyPointer ≤ Int.ofNat (s.addStroke x).2.history.length - 1 ∧
    (s.maxHistorySize = 0 →
      (s.addStroke x).2.history = [] ∧ (s.addStroke x).2.historyPointer = -1) := by
  obtain ⟨a1, a2, _⟩ := addStroke_last s x hv hc
  refine ⟨?_, ?_, ?_⟩
  · simp only [Int.ofNat_eq_coe] at *
    omega
  · omega
  · intro h0
    have hlen : (s.addStroke x).2.history.length = 0 := by
      simp only [Int.ofNat_eq_coe] at *
      omega
    refine ⟨List.length_eq_zero.mp hlen, ?_⟩
    rw [a1, hlen]
    rfl

/-- Witness of C14 (amended) on a room with cap `0`. -/
theorem C14_pointer_valid_any_cap_witness :
    PointerValid ({ history := [], historyPointer := -1, maxHistorySize := 0 } : RoomState Nat) ∧
    -1 ≤ ((({ history := [], historyPointer := -1, maxHistorySize := 0 } :
      RoomState Nat).addStroke 5).2).historyPointer :=
  ⟨by decide,
    (C14_pointer_valid_any_cap
      ({ history := [], historyPointer := -1, maxHistorySize := 0 } : RoomState Nat) 5
      (by decide) (by decide)).1⟩

/-! ## Lemmas on `RoomManager` -/

namespace RoomManager

variable {ρ : Type u} {ι : Type v} [DecidableEq ρ] [DecidableEq ι]

theorem addUser_eq (m : RoomManager ρ ι) (r : ρ) (u : UserData ι) :
    m.addUser r u =
      (true, ⟨m.rooms.set r (((m.rooms.get r).getD JSMap.empty).set u.id u)⟩) := by
  unfold addUser
  cases h : m.rooms.get r with
  | none =>
    simp only [JSMap.has, h, Option.isSome_none, Bool.not_false, if_true,
      JSMap.get_set_same, JSMap.set_set, Option.getD_none]
  | some room =>
    simp only [JSMap.has, h, Option.isSome_some, Bool.not_true, Bool.false_eq_true, if_false,
      Option.getD_some]

theorem removeUser_of_none (m : RoomManager ρ ι) (r : ρ) (i : ι) (h : m.rooms.get r = none) :
    m.removeUser r i = (false, m) := by
  unfold removeUser
  rw [h]

theorem removeUser_of_some (m : RoomManager ρ ι) (r : ρ) (i : ι) (room : JSMap ι (UserData ι))
    (h : m.rooms.get r = some room) :
    m.removeUser r i =
      if (room.delete i).2.size = 0 then
        ((room.delete i).1, ⟨((m.rooms.set r (room.delete i).2).delete r).2⟩)
      else ((room.delete i).1, ⟨m.rooms.set r (room.delete i).2⟩) := by
  unfold removeUser
  rw [h]

/-- Removing the only member of a room deletes the room. -/
theorem removeUser_last (m : RoomManager ρ ι) (r : ρ) (i : ι)
    (hcount : m.getUserCount r = 1) (hmem : (m.getUser r i).isSome = true) :
    (m.removeUser r i).1 = true ∧
    (m.removeUser r i).2.rooms.get r = none ∧
    (m.removeUser r i).2.getRoomCount + 1 = m.getRoomCount := by
  cases h : m.rooms.get r with
  | none =>
    simp [getUser, h] at hmem
  | some room =>
    simp only [getUserCount, h] at hcount
    simp only [getUser, h] at hmem
    obtain ⟨y, hy⟩ := Option.isSome_iff_exists.mp hmem
    have hsz := JSMap.size_delete_of_get room i y hy
    have h0 : (room.delete i).2.size = 0 := by omega
    rw [removeUser_of_some m r i room h, if_pos h0]
    refine ⟨?_, ?_, ?_⟩
    · show room.has i = true
      unfold JSMap.has
      rw [hy]
      rfl
    · exact JSMap.get_delete_same _ r
    · have h1 := JSMap.size_delete_of_get (m.rooms.set r (room.delete i).2) r
        (room.delete i).2 (JSMap.get_set_same _ _ _)
      have h2 := JSMap.size_set_of_get m.rooms r (room.delete i).2 room h
      show ((m.rooms.set r (room.delete i).2).delete r).2.size + 1 = m.rooms.size
      omega

theorem registry_inv_new : NoEmptyRoom (RoomManager.new : RoomManager ρ ι) ∧
    WellKeyed (RoomManager.new : RoomManager ρ ι) := by
  constructor
  · intro e he
    simp [RoomManager.new, JSMap.empty] at he
  · intro e he
    simp [RoomManager.new, JSMap.empty] at he

theorem registry_inv_addUser (m : RoomManager ρ ι) (r : ρ) (u : UserData ι)
    (hi : NoEmptyRoom m ∧ WellKeyed m) :
    NoEmptyRoom (m.addUser r u).2 ∧ WellKeyed (m.addUser r u).2 := by
  obtain ⟨hn, hw⟩ := hi
  rw [addUser_eq]
  constructor
  · intro e he
    rcases mem_setEntry _ _ _ _ he with h | h
    · exact hn e h
    · rw [h]
      exact JSMap.size_pos_of_get _ u.id u (JSMap.get_set_same _ _ _)
  · intro e he p hp
    rcases mem_setEntry _ _ _ _ he with h | h
    · exact hw e h p hp
    · rw [h] at hp
      rcases mem_setEntry _ _ _ _ hp with h2 | h2
      · cases hg : m.rooms.get r with
        | none =>
          rw [hg] at h2
          simp [JSMap.empty] at h2
        | some room =>
          rw [hg] at h2
          exact hw (r, room) (mem_of_lookupEntry _ _ _ hg) p h2
      · rw [h2]

theorem registry_inv_removeUser (m : RoomManager ρ ι) (r : ρ) (i : ι)
    (hi : NoEmptyRoom m ∧ WellKeyed m) :
    NoEmptyRoom (m.removeUser r i).2 ∧ WellKeyed (m.removeUser r i).2 := by
  obtain ⟨hn, hw⟩ := hi
  cases hg : m.rooms.get r with
  | none =>
    rw [removeUser_of_none m r i hg]
    exact ⟨hn, hw⟩
  | some room =>
    have hroom : ∀ p ∈ (room.delete i).2.entries, p.2.id = p.1 := by
      intro p hp
      exact hw (r, room) (mem_of_lookupEntry _ _ _ hg) p (mem_deleteEntry _ _ _ hp).1
    rw [removeUser_of_some m r i room hg]
    split_ifs with h0
    · constructor
      · intro e he
        obtain ⟨h1, h2⟩ := mem_deleteEntry _ _ _ he
        rcases mem_setEntry _ _ _ _ h1 with h | h
        · exact hn e h
        · exact absurd (by rw [h]) h2
      · intro e he
        obtain ⟨h1, h2⟩ := mem_deleteEntry _ _ _ he
        rcases mem_setEntry _ _ _ _ h1 with h | h
        · exact hw e h
        · exact absurd (by rw [h]) h2
    · constructor
      · intro e he
        rcases mem_setEntry _ _ _ _ he with h | h
        · exact hn e h
        · rw [h]
          exact h0
      · intro e he
        rcases mem_setEntry _ _ _ _ he with h | h
        · exact hw e h
        · rw [h]
          exact hroom

theorem registry_inv_deleteRoom (m : RoomManager ρ ι) (r : ρ) (hi : NoEmptyRoom m ∧ WellKeyed m) :
    NoEmptyRoom (m.deleteRoom r).2 ∧ WellKeyed (m.deleteRoom r).2 := by
  obtain ⟨hn, hw⟩ := hi
  constructor
  · intro e he
    exact hn e (mem_deleteEntry _ _ _ he).1
  · intro e he
    exact hw e (mem_deleteEntry _ _ _ he).1

theorem registry_inv_of_reachable (m : RoomManager ρ ι) (hr : Reachable m) :
    NoEmptyRoom m ∧ WellKeyed m := by
  induction hr with
  | new => exact registry_inv_new
  | addUser m r u _ ih => exact registry_inv_addUser m r u ih
  | removeUser m r i _ ih => exact registry_inv_removeUser m r i ih
  | deleteRoom m r _ ih => exact registry_inv_deleteRoom m r ih

end RoomManager

/-! ## The claims on `RoomManager` -/

section RoomManagerClaims

variable {ρ : Type u} {ι : Type v} [DecidableEq ρ] [DecidableEq ι]

/-- C15: after `addUser(r, u)` the room `r` exists and `getUser(r, u.id)` is
`u`; if a record with id `u.id` was already a member of `r`, `getUserCount(r)`
is unchanged (the stored record is replaced by `u`); and a second
`addUser(r, u)` leaves the registry as the first one made it. -/
theorem C15_addUser_lazy_idempotent (m : RoomManager ρ ι) (r : ρ) (u : UserData ι) :
    r ∈ (m.addUser r u).2.getRoomIds ∧
    (m.addUser r u).2.getUser r u.id = some u ∧
    ((m.getUser r u.id).isSome = true →
      (m.addUser r u).2.getUserCount r = m.getUserCount r) ∧
    ((m.addUser r u).2.addUser r u).2 = (m.addUser r u).2 ∧
    (m.addUser r u).1 = true := by
  have hget : (m.addUser r u).2.rooms.get r =
      some (((m.rooms.get r).getD JSMap.empty).set u.id u) := by
    rw [RoomManager.addUser_eq]
    exact JSMap.get_set_same _ _ _
  refine ⟨?_, ?_, ?_, ?_, ?_⟩
  · show r ∈ (m.addUser r u).2.rooms.keys
    rw [JSMap.mem_keys_iff, hget]
    rfl
  · unfold RoomManager.getUser
    rw [hget]
    exact JSMap.get_set_same _ _ _
  · intro hmem
    unfold RoomManager.getUserCount
    rw [hget]
    cases hg : m.rooms.get r with
    | none => simp [RoomManager.getUser, hg] at hmem
    | some room =>
      simp only [RoomManager.getUser, hg] at hmem
      obtain ⟨y, hy⟩ := Option.isSome_iff_exists.mp hmem
      exact JSMap.size_set_of_get room u.id u y hy
  · rw [RoomManager.addUser_eq (m.addUser r u).2, hget]
    simp only [Option.getD_some]
    rw [JSMap.set_of_get _ u.id u (JSMap.get_set_same _ _ _)]
    rw [JSMap.set_of_get _ r _ hget]
  · rw [RoomManager.addUser_eq]

/-- Witness of C15: `alice` joins room `10` again. -/
theorem C15_addUser_lazy_idempotent_witness :
    (RoomManager.soloRoom.getUser 10 RoomManager.alice.id).isSome = true ∧
    (RoomManager.soloRoom.addUser 10 RoomManager.alice).2.getUserCount 10 =
      RoomManager.soloRoom.getUserCount 10 ∧
    RoomManager.soloRoom.getUserCount 10 = 1 :=
  ⟨by decide,
    (C15_addUser_lazy_idempotent RoomManager.soloRoom 10 RoomManager.alice).2.2.1 (by decide),
    by decide⟩

/-- C16: `removeUser(r, id)` returns true if and only if `id` was a member of
room `r` before the call; after the call `getUser(r, id)` finds nothing; and
in every reachable registry no record of `getUsers(r)` has that id afterwards,
and a call that returns false leaves the registry unchanged. -/
theorem C16_removeUser_contract (m : RoomManager ρ ι) (r : ρ) (i : ι) :
    ((m.removeUser r i).1 = true ↔ (m.getUser r i).isSome = true) ∧
    (m.removeUser r i).2.getUser r i = none ∧
    (RoomManager.Reachable m →
      (∀ u ∈ (m.removeUser r i).2.getUsers r, u.id ≠ i) ∧
      ((m.removeUser r i).1 = false → (m.removeUser r i).2 = m)) := by
  cases hg : m.rooms.get r with
  | none =>
    rw [RoomManager.removeUser_of_none m r i hg]
    refine ⟨?_, ?_, ?_⟩
    · simp [RoomManager.getUser, hg]
    · simp [RoomManager.getUser, hg]
    · intro _
      refine ⟨?_, fun _ => rfl⟩
      intro u hu
      simp [RoomManager.getUsers, hg] at hu
  | some room =>
    have hnone : (room.delete i).2.get i = none := JSMap.get_delete_same room i
    rw [RoomManager.removeUser_of_some m r i room hg]
    refine ⟨?_, ?_, ?_⟩
    · have : m.getUser r i = room.get i := by simp [RoomManager.getUser, hg]
      rw [this]
      split_ifs <;> rfl
    · split_ifs with h0
      · unfold RoomManager.getUser
        rw [JSMap.get_delete_same]
      · unfold RoomManager.getUser
        rw [JSMap.get_set_same]
        exact hnone
    · intro hr
      obtain ⟨hn, hw⟩ := RoomManager.registry_inv_of_reachable m hr
      have hin : (r, room) ∈ m.rooms.entries := mem_of_lookupEntry _ _ _ hg
      constructor
      · intro u hu
        split_ifs at hu with h0
        · unfold RoomManager.getUsers at hu
          rw [JSMap.get_delete_same] at hu
          simp at hu
        · unfold RoomManager.getUsers at hu
          rw [JSMap.get_set_same] at hu
          obtain ⟨p, hp, hpu⟩ := List.mem_map.mp hu
          obtain ⟨h1, h2⟩ := mem_deleteEntry _ _ _ hp
          have h3 := hw (r, room) hin p h1
          rw [← hpu, h3]
          exact h2
      · intro hf
        have hfalse : (room.delete i).1 = false := by
          split_ifs at hf <;> exact hf
        have hgi : room.get i = none := by
          have h4 : (room.get i).isSome = false := hfalse
          cases hc : room.get i with
          | none => rfl
          | some y => simp [hc] at h4
        have hsame : (room.delete i).2 = room := JSMap.delete_of_get_none room i hgi
        have hsz : ¬ (room.delete i).2.size = 0 := by
          rw [hsame]
          exact hn (r, room) hin
        rw [if_neg hsz, hsame, JSMap.set_of_get m.rooms r room hg]

/-- Witness of C16: removing the absent user `2` from the room of `alice`. -/
theorem C16_removeUser_contract_witness :
    RoomManager.Reachable RoomManager.soloRoom ∧
    (RoomManager.soloRoom.removeUser 10 2).1 = false ∧
    (RoomManager.soloRoom.removeUser 10 2).2 = RoomManager.soloRoom :=
  ⟨RoomManager.Reachable.addUser _ 10 RoomManager.alice RoomManager.Reachable.new,
    by decide,
    ((C16_removeUser_contract RoomManager.soloRoom 10 2).2.2
      (RoomManager.Reachable.addUser _ 10 RoomManager.alice RoomManager.Reachable.new)).2
      (by decide)⟩

/-- C17: when room `r` has exactly one member and that member is `u`,
`removeUser(r, u.id)` deletes the room: it returns true, `r` is no longer
among `getRoomIds()`, `getRoomCount()` decreases by exactly one, and
`getUsers(r)` is empty. -/
theorem C17_destroy_on_empty (m : RoomManager ρ ι) (r : ρ) (u : UserData ι)
    (hcount : m.getUserCount r = 1) (hmem : m.getUser r u.id = some u) :
    (m.removeUser r u.id).1 = true ∧
    r ∉ (m.removeUser r u.id).2.getRoomIds ∧
    (m.removeUser r u.id).2.getRoomCount + 1 = m.getRoomCount ∧
    (m.removeUser r u.id).2.getUsers r = [] ∧
    (m.removeUser r u.id).2.isRoomEmpty r = true := by
  obtain ⟨h1, h2, h3⟩ := RoomManager.removeUser_last m r u.id hcount (by rw [hmem]; rfl)
  refine ⟨h1, ?_, h3, ?_, ?_⟩
  · show r ∉ (m.removeUser r u.id).2.rooms.keys
    rw [JSMap.mem_keys_iff, h2]
    simp
  · unfold RoomManager.getUsers
    rw [h2]
  · unfold RoomManager.isRoomEmpty
    rw [h2]

/-- Witness of C17: `alice` leaves the room she is alone in. -/
theorem C17_destroy_on_empty_witness :
    RoomManager.soloRoom.getUserCount 10 = 1 ∧
    RoomManager.soloRoom.getUser 10 RoomManager.alice.id = some RoomManager.alice ∧
    (RoomManager.soloRoom.removeUser 10 RoomManager.alice.id).2.getRoomCount + 1 =
      RoomManager.soloRoom.getRoomCount ∧
    (RoomManager.soloRoom.removeUser 10 RoomManager.alice.id).2.getRoomCount = 0 :=
  ⟨by decide, rfl,
    (C17_destroy_on_empty RoomManager.soloRoom 10 RoomManager.alice (by decide) (by rfl)).2.2.1,
    by decide⟩

end RoomManagerClaims

/-! ## Lemmas on `StateManager` -/

namespace StateManager

variable {ρ : Type v} [DecidableEq ρ]

theorem initRoom_of_none (m : StateManager σ ρ) (r : ρ) (h : m.rooms.get r = none) :
    m.initRoom r = (RoomState.new, ⟨m.rooms.set r RoomState.new⟩) := by
  unfold initRoom
  simp only [JSMap.has, h, Option.isSome_none, Bool.not_false, if_true, JSMap.get_set_same]

theorem initRoom_of_some (m : StateManager σ ρ) (r : ρ) (s : RoomState σ)
    (h : m.rooms.get r = some s) : m.initRoom r = (s, m) := by
  unfold initRoom
  simp only [JSMap.has, h, Option.isSome_some, Bool.not_true, Bool.false_eq_true, if_false]

theorem initRoom_get_same (m : StateManager σ ρ) (r : ρ) :
    (m.initRoom r).2.rooms.get r = some (m.initRoom r).1 := by
  cases h : m.rooms.get r with
  | none =>
    rw [initRoom_of_none m r h]
    exact JSMap.get_set_same _ _ _
  | some s =>
    rw [initRoom_of_some m r s h]
    exact h

theorem initRoom_get_ne (m : StateManager σ ρ) (r r' : ρ) (hne : r' ≠ r) :
    (m.initRoom r).2.rooms.get r' = m.rooms.get r' := by
  cases h : m.rooms.get r with
  | none =>
    rw [initRoom_of_none m r h]
    exact JSMap.get_set_ne _ _ _ _ hne
  | some s =>
    rw [initRoom_of_some m r s h]

theorem new_reads_empty :
    (RoomState.new : RoomState σ).strokes = [] ∧ (RoomState.new : RoomState σ).canUndo = false ∧
    (RoomState.new : RoomState σ).canRedo = false := by
  refine ⟨?_, ?_, ?_⟩
  · simp [RoomState.strokes, RoomState.new]
  · simp [RoomState.canUndo, RoomState.new]
  · simp [RoomState.canRedo, RoomState.new]

end StateManager

/-! ## The claims on `StateManager` and the handlers -/

section StateManagerClaims

variable {ρ : Type v} {ι : Type w} [DecidableEq ρ] [DecidableEq ι]

/-- C18: `getRoomState(id)` always returns a `RoomState`; when `id` was not
present the returned state is a fresh one, with no visible strokes, `canUndo()`
false and `canRedo()` false; when `id` was present the stored state is
returned and the manager is unchanged; and a second lookup returns the same
state and changes nothing more. -/
theorem C18_lookup_never_fails (m : StateManager σ ρ) (r : ρ) :
    (m.rooms.get r = none →
      (m.getRoomState r).1 = RoomState.new ∧ (m.getRoomState r).1.strokes = [] ∧
      (m.getRoomState r).1.canUndo = false ∧ (m.getRoomState r).1.canRedo = false) ∧
    (∀ s, m.rooms.get r = some s → (m.getRoomState r).1 = s ∧ (m.getRoomState r).2 = m) ∧
    (m.getRoomState r).2.getRoomState r = m.getRoomState r ∧
    (m.getRoomState r).2.rooms.get r = some (m.getRoomState r).1 := by
  unfold StateManager.getRoomState
  refine ⟨?_, ?_, ?_, StateManager.initRoom_get_same m r⟩
  · intro h
    rw [StateManager.initRoom_of_none m r h]
    exact ⟨rfl, StateManager.new_reads_empty⟩
  · intro s h
    rw [StateManager.initRoom_of_some m r s h]
    exact ⟨rfl, rfl⟩
  · exact StateManager.initRoom_of_some _ r _ (StateManager.initRoom_get_same m r)

/-- Witness of C18: room `30` is unknown to the manager of rooms `10` and `20`. -/
theorem C18_lookup_never_fails_witness :
    StateManager.twoRooms.rooms.get 30 = none ∧
    (StateManager.twoRooms.getRoomState 30).1.strokes = [] ∧
    (StateManager.twoRooms.getRoomState 10).1.strokes = [7] :=
  ⟨rfl, ((C18_lookup_never_fails StateManager.twoRooms 30).1 rfl).2.1, by decide⟩

/-- C20: for distinct room ids `r` and `r'`, `addStroke(r, x)`, `clearRoom(r)`,
`cleanupRoom(r)`, `getRoomState(r)` and `undo()` or `redo()` on the state of
`r` leave what the manager stores for `r'` (its `history`, `historyPointer`,
and whether it exists) unchanged. -/
theorem C20_history_isolation (m : StateManager σ ρ) (r r' : ρ) (x : σ) (hne : r' ≠ r) :
    (m.addStroke r x).2.rooms.get r' = m.rooms.get r' ∧
    (m.clearRoom r).rooms.get r' = m.rooms.get r' ∧
    (m.cleanupRoom r).rooms.get r' = m.rooms.get r' ∧
    (m.getRoomState r).2.rooms.get r' = m.rooms.get r' ∧
    (m.undoIn r).2.2.rooms.get r' = m.rooms.get r' ∧
    (m.redoIn r).2.2.rooms.get r' = m.rooms.get r' := by
  have hinit := StateManager.initRoom_get_ne m r r' hne
  refine ⟨?_, ?_, ?_, hinit, ?_, ?_⟩
  · unfold StateManager.addStroke StateManager.getRoomState
    exact (JSMap.get_set_ne _ _ _ _ hne).trans hinit
  · unfold StateManager.clearRoom StateManager.getRoomState
    exact (JSMap.get_set_ne _ _ _ _ hne).trans hinit
  · unfold StateManager.cleanupRoom
    exact JSMap.get_delete_ne _ _ _ hne
  · unfold StateManager.undoIn StateManager.getRoomState
    exact (JSMap.get_set_ne _ _ _ _ hne).trans hinit
  · unfold StateManager.redoIn StateManager.getRoomState
    exact (JSMap.get_set_ne _ _ _ _ hne).trans hinit

/-- Witness of C20: clearing room `10` leaves stroke `8` of room `20`. -/
theorem C20_history_isolation_witness :
    (20 : Nat) ≠ 10 ∧
    (StateManager.twoRooms.clearRoom 10).rooms.get 20 = StateManager.twoRooms.rooms.get 20 ∧
    ((StateManager.twoRooms.clearRoom 10).getRoomState 20).1.strokes = [8] ∧
    ((StateManager.twoRooms.clearRoom 10).getRoomState 10).1.strokes = [] :=
  ⟨by decide, (C20_history_isolation StateManager.twoRooms 10 20 0 (by decide)).2.1,
    by decide, by decide⟩

/-- C19: when socket `sid` has joined room `r` (its `currentRoom` and
`userData` are set), is a member of `r`, and `r` has exactly one member, then
whatever strokes the room holds, the `disconnect` handler removes `r` from
the `RoomManager` (`getRoomCount()` decreases by one) and from the
`StateManager`, and a following `getRoomState(r)` returns a fresh state: no
strokes, `canUndo()` false, `canRedo()` false. -/
theorem C19_last_leave_destroys (srv : Server σ ρ ι) (sid : ι) (r : ρ)
    (hroom : (srv.vars sid).currentRoom = some r)
    (hdata : ((srv.vars sid).userData).isSome = true)
    (hcount : srv.roomManager.getUserCount r = 1)
    (hmem : (srv.roomManager.getUser r sid).isSome = true) :
    (srv.onDisconnect sid).2.roomManager.getRoomCount + 1 = srv.roomManager.getRoomCount ∧
    r ∉ (srv.onDisconnect sid).2.roomManager.getRoomIds ∧
    (srv.onDisconnect sid).2.stateManager.rooms.get r = none ∧
    r ∉ (srv.onDisconnect sid).2.stateManager.rooms.keys ∧
    ((srv.onDisconnect sid).2.stateManager.getRoomState r).1 = RoomState.new ∧
    ((srv.onDisconnect sid).2.stateManager.getRoomState r).1.strokes = [] ∧
    ((srv.onDisconnect sid).2.stateManager.getRoomState r).1.canUndo = false ∧
    ((srv.onDisconnect sid).2.stateManager.getRoomState r).1.canRedo = false := by
  obtain ⟨u, hu⟩ := Option.isSome_iff_exists.mp hdata
  obtain ⟨_, h2, h3⟩ := RoomManager.removeUser_last srv.roomManager r sid hcount hmem
  have hempty : (srv.roomManager.removeUser r sid).2.isRoomEmpty r = true := by
    unfold RoomManager.isRoomEmpty
    rw [h2]
  have hstep : (srv.onDisconnect sid).2 =
      { srv with roomManager := (srv.roomManager.removeUser r sid).2,
                 stateManager := srv.stateManager.cleanupRoom r } := by
    unfold Server.onDisconnect
    rw [hroom, hu]
    simp only [hempty, if_true]
  have hgone : (srv.onDisconnect sid).2.stateManager.rooms.get r = none := by
    rw [hstep]
    exact JSMap.get_delete_same _ r
  have hfresh : ((srv.onDisconnect sid).2.stateManager.getRoomState r).1 = RoomState.new := by
    unfold StateManager.getRoomState
    rw [StateManager.initRoom_of_none _ r hgone]
  refine ⟨?_, ?_, hgone, ?_, hfresh, ?_⟩
  · rw [hstep]
    exact h3
  · rw [hstep]
    show r ∉ (srv.roomManager.removeUser r sid).2.rooms.keys
    rw [JSMap.mem_keys_iff, h2]
    simp
  · rw [JSMap.mem_keys_iff, hgone]
    simp
  · rw [hfresh]
    exact StateManager.new_reads_empty

/-- Witness of C19: socket `1`, alone in room `10` with one stroke, disconnects. -/
theorem C19_last_leave_destroys_witness :
    (Server.soloServer.vars 1).currentRoom = some 10 ∧
    Server.soloServer.roomManager.getUserCount 10 = 1 ∧
    (Server.soloServer.stateManager.getRoomState 10).1.strokes = [7] ∧
    (Server.soloServer.onDisconnect 1).2.roomManager.getRoomCount + 1 =
      Server.soloServer.roomManager.getRoomCount ∧
    ((Server.soloServer.onDisconnect 1).2.stateManager.getRoomState 10).1.strokes = [] :=
  ⟨by decide, by decide, by decide,
    (C19_last_leave_destroys Server.soloServer 1 10 (by decide) (by decide) (by decide)
      (by decide)).1,
    by decide⟩

end StateManagerClaims

/-! ## Sequences of `undo()` and `redo()` -/

namespace RoomState

theorem with_pointer_self (s : RoomState σ) (q : Int) (h : q = s.historyPointer) :
    ({ s with historyPointer := q } : RoomState σ) = s := by
  cases s
  simp only at h
  rw [h]

theorem undoTimes_eq (s : RoomState σ) (j : Nat) (hj : Int.ofNat j ≤ s.historyPointer + 1) :
    undoTimes j s = { s with historyPointer := s.historyPointer - Int.ofNat j } := by
  induction j with
  | zero =>
    show s = _
    rw [with_pointer_self s _ (by simp)]
  | succ j ih =>
    have hj2 : Int.ofNat j ≤ s.historyPointer + 1 := by
      simp only [Int.ofNat_eq_coe, Nat.cast_add, Nat.cast_one] at *
      omega
    show (undoTimes j s).undo.2 = _
    rw [ih hj2, undo_of_nonneg _ (by
      simp only [Int.ofNat_eq_coe, Nat.cast_add, Nat.cast_one] at *
      omega)]
    simp only [Int.ofNat_eq_coe, Nat.cast_add, Nat.cast_one]
    congr 1
    omega

theorem redoTimes_eq (s : RoomState σ) (j : Nat)
    (hj : s.historyPointer + Int.ofNat j ≤ Int.ofNat s.history.length - 1) :
    redoTimes j s = { s with historyPointer := s.historyPointer + Int.ofNat j } := by
  induction j with
  | zero =>
    show s = _
    rw [with_pointer_self s _ (by simp)]
  | succ j ih =>
    have hj2 : s.historyPointer + Int.ofNat j ≤ Int.ofNat s.history.length - 1 := by
      simp only [Int.ofNat_eq_coe, Nat.cast_add, Nat.cast_one] at *
      omega
    show (redoTimes j s).redo.2 = _
    rw [ih hj2, redo_of_lt _ (by
      simp only [Int.ofNat_eq_coe, Nat.cast_add, Nat.cast_one] at *
      omega)]
    simp only [Int.ofNat_eq_coe, Nat.cast_add, Nat.cast_one]
    congr 1
    omega

theorem strokes_of_last (s : RoomState σ)
    (h : s.historyPointer = Int.ofNat s.history.length - 1) : s.strokes = s.history := by
  have hv : PointerValid s := by
    constructor <;> simp only [Int.ofNat_eq_coe] at * <;> omega
  rw [strokes_eq_take s hv]
  have : (s.historyPointer + 1).toNat = s.history.length := by
    simp only [Int.ofNat_eq_coe] at *
    omega
  rw [this, List.take_length]

end RoomState

/-- C27: in every reachable state where `canRedo()` is true, `redo()` followed
immediately by `undo()` gives back the state before the redo (`history` and
`historyPointer`, hence the visible strokes, `canUndo()` and `canRedo()`), both
calls succeed, and the `undoneStroke` of that undo is the `redoneStroke` of the
redo. -/
theorem C27_redo_undo_identity (s : RoomState σ) (hr : Reachable s)
    (hredo : s.canRedo = true) :
    s.redo.2.undo.2 = s ∧
    s.redo.2.undo.2.history = s.history ∧
    s.redo.2.undo.2.historyPointer = s.historyPointer ∧
    s.redo.1.success = true ∧ s.redo.2.undo.1.success = true ∧
    s.redo.2.undo.1.undoneStroke = s.redo.1.redoneStroke := by
  obtain ⟨_, ⟨h1, _⟩, _⟩ := inv_of_reachable s hr
  have hlt : s.historyPointer < Int.ofNat s.history.length - 1 := by
    unfold canRedo at hredo
    exact of_decide_eq_true hredo
  have hback : s.redo.2.undo.2 = s := by
    rw [redo_of_lt s hlt]
    rw [undo_of_nonneg _ (by simp only []; omega)]
    exact with_pointer_self s _ (by simp)
  refine ⟨hback, by rw [hback], by rw [hback], ?_, ?_, ?_⟩
  · rw [redo_of_lt s hlt]
  · rw [redo_of_lt s hlt]
    rw [undo_of_nonneg _ (by simp only []; omega)]
  · rw [redo_of_lt s hlt]
    rw [undo_of_nonneg _ (by simp only []; omega)]

/-- Witness of C27 on the state with history `[3, 4]` and pointer `0`. -/
theorem C27_redo_undo_identity_witness :
    Reachable twoUndone ∧ twoUndone.canRedo = true ∧
    twoUndone.redo.2.undo.2 = twoUndone ∧
    twoUndone.redo.2.undo.1.undoneStroke = some 4 :=
  ⟨Reachable.undo _ (Reachable.addStroke _ 4 (Reachable.addStroke _ 3 Reachable.new)),
    by decide,
    (C27_redo_undo_identity twoUndone
      (Reachable.undo _ (Reachable.addStroke _ 4 (Reachable.addStroke _ 3 Reachable.new)))
      (by decide)).1,
    by decide⟩

/-- C26: from every reachable state with `k` visible strokes and
`m = history.length - k` hidden strokes, each of the first `k` consecutive
`undo()` calls succeeds and the next one fails on a blank canvas; each of the
first `m` consecutive `redo()` calls succeeds and the next one fails with the
whole history visible. -/
theorem C26_undo_redo_exhaust (s : RoomState σ) (hr : Reachable s) :
    (∀ j, j < s.strokes.length → (undoTimes j s).undo.1.success = true) ∧
    (undoTimes s.strokes.length s).undo.1.success = false ∧
    (undoTimes s.strokes.length s).strokes = [] ∧
    (undoTimes (s.strokes.length + 1) s).strokes = [] ∧
    (∀ j, j < s.history.length - s.strokes.length →
      (redoTimes j s).redo.1.success = true) ∧
    (redoTimes (s.history.length - s.strokes.length) s).redo.1.success = false ∧
    (redoTimes (s.history.length - s.strokes.length) s).strokes = s.history ∧
    (redoTimes (s.history.length - s.strokes.length + 1) s).strokes = s.history := by
  obtain ⟨_, hv, _⟩ := inv_of_reachable s hr
  have hk := strokes_length s hv
  obtain ⟨h1, h2⟩ := hv
  simp only [Int.ofNat_eq_coe] at hk h2
  have hu : undoTimes s.strokes.length s = { s with historyPointer := -1 } := by
    rw [undoTimes_eq s _ (by simp only [Int.ofNat_eq_coe]; omega)]
    simp only [Int.ofNat_eq_coe]
    congr 1
    omega
  have hufail := undo_of_neg ({ s with historyPointer := -1 } : RoomState σ) (by simp)
  have hd : redoTimes (s.history.length - s.strokes.length) s =
      { s with historyPointer := Int.ofNat s.history.length - 1 } := by
    rw [redoTimes_eq s _ (by simp only [Int.ofNat_eq_coe]; omega)]
    simp only [Int.ofNat_eq_coe]
    congr 1
    omega
  have hdfail := redo_of_not_lt
    ({ s with historyPointer := Int.ofNat s.history.length - 1 } : RoomState σ) (by simp)
  have hall : ({ s with historyPointer := Int.ofNat s.history.length - 1 } :
      RoomState σ).strokes = s.history := strokes_of_last _ rfl
  refine ⟨?_, ?_, ?_, ?_, ?_, ?_, ?_, ?_⟩
  · intro j hj
    rw [undoTimes_eq s j (by simp only [Int.ofNat_eq_coe]; omega)]
    rw [undo_of_nonneg _ (by simp only [Int.ofNat_eq_coe]; omega)]
  · rw [hu, hufail]
  · rw [hu]
    simp [strokes]
  · show (undoTimes s.strokes.length s).undo.2.strokes = []
    rw [hu, hufail]
    simp [strokes]
  · intro j hj
    rw [redoTimes_eq s j (by simp only [Int.ofNat_eq_coe]; omega)]
    rw [redo_of_lt _ (by simp only [Int.ofNat_eq_coe]; omega)]
  · rw [hd, hdfail]
  · rw [hd]
    exact hall
  · show (redoTimes (s.history.length - s.strokes.length) s).redo.2.strokes = s.history
    rw [hd, hdfail]
    exact hall

/-- Witness of C26 on the state with history `[3, 4]` and pointer `0`. -/
theorem C26_undo_redo_exhaust_witness :
    Reachable twoUndone ∧ twoUndone.strokes.length = 1 ∧
    (undoTimes twoUndone.strokes.length twoUndone).undo.1.success = false ∧
    (undoTimes 0 twoUndone).undo.1.success = true ∧
    (redoTimes 1 twoUndone).strokes = [3, 4] :=
  ⟨Reachable.undo _ (Reachable.addStroke _ 4 (Reachable.addStroke _ 3 Reachable.new)),
    by decide,
    (C26_undo_redo_exhaust twoUndone
      (Reachable.undo _ (Reachable.addStroke _ 4 (Reachable.addStroke _ 3 Reachable.new)))).2.1,
    by decide, by decide⟩

/-! ## Refinement of the two-stack model -/

namespace RoomState

theorem toTwoStack_eq (s : RoomState σ) (hv : PointerValid s) :
    s.toTwoStack =
      { undoStack := s.history.take (s.historyPointer + 1).toNat,
        redoStack := s.history.drop (s.historyPointer + 1).toNat,
        cap := s.maxHistorySize } := by
  unfold toTwoStack
  rw [strokes_eq_take s hv, jsSliceFrom_of_nonneg _ _ (by have := hv.1; omega)]

theorem toTwoStack_of_last (s : RoomState σ)
    (h : s.historyPointer = Int.ofNat s.history.length - 1) :
    s.toTwoStack = { undoStack := s.history, redoStack := [], cap := s.maxHistorySize } := by
  have hv : PointerValid s := by
    constructor <;> simp only [Int.ofNat_eq_coe] at * <;> omega
  have hn : (s.historyPointer + 1).toNat = s.history.length := by
    simp only [Int.ofNat_eq_coe] at *
    omega
  rw [toTwoStack_eq s hv, hn, List.take_length, List.drop_length]

theorem undo_refines (s : RoomState σ) (hv : PointerValid s) :
    s.undo.1.success = s.toTwoStack.undo.1 ∧ s.undo.2.toTwoStack = s.toTwoStack.undo.2 := by
  obtain ⟨h1, h2⟩ := hv
  by_cases hp : 0 ≤ s.historyPointer
  · have hv2 : PointerValid
        ({ s with historyPointer := s.historyPointer - 1 } : RoomState σ) := by
      constructor <;> simp only [] <;> omega
    have hlt : s.historyPointer.toNat < s.history.length := by
      simp only [Int.ofNat_eq_coe] at h2
      omega
    have hn : (s.historyPointer + 1).toNat = s.historyPointer.toNat + 1 := by omega
    have hn1 : (s.historyPointer - 1 + 1).toNat = s.historyPointer.toNat := by
      simp only [sub_add_cancel]
    have htake : s.history.take (s.historyPointer.toNat + 1) =
        s.history.take s.historyPointer.toNat ++ [s.history[s.historyPointer.toNat]] := by
      rw [List.take_succ, List.getElem?_eq_getElem hlt]
      rfl
    rw [undo_of_nonneg s hp, toTwoStack_eq s ⟨h1, h2⟩, toTwoStack_eq _ hv2]
    simp only [hn, hn1, htake]
    unfold TwoStack.undo
    simp only [List.getLast?_concat, List.dropLast_concat]
    rw [List.drop_eq_getElem_cons hlt]
    refine ⟨?_, ?_⟩ <;> first | rfl | trivial
  · have hm : s.historyPointer + 1 = 0 := by omega
    rw [undo_of_neg s (by omega), toTwoStack_eq s ⟨h1, h2⟩]
    unfold TwoStack.undo
    simp only [hm, Int.toNat_zero, List.take_zero, List.getLast?_nil]
    refine ⟨?_, ?_⟩ <;> first | rfl | trivial

theorem redo_refines (s : RoomState σ) (hv : PointerValid s) :
    s.redo.1.success = s.toTwoStack.redo.1 ∧ s.redo.2.toTwoStack = s.toTwoStack.redo.2 := by
  obtain ⟨h1, h2⟩ := hv
  by_cases hp : s.historyPointer < Int.ofNat s.history.length - 1
  · have hv2 : PointerValid
        ({ s with historyPointer := s.historyPointer + 1 } : RoomState σ) := by
      constructor <;> simp only [] <;> omega
    have hlt : (s.historyPointer + 1).toNat < s.history.length := by
      simp only [Int.ofNat_eq_coe] at hp
      omega
    have hn : (s.historyPointer + 1 + 1).toNat = (s.historyPointer + 1).toNat + 1 := by omega
    have htake : s.history.take ((s.historyPointer + 1).toNat + 1) =
        s.history.take (s.historyPointer + 1).toNat ++
          [s.history[(s.historyPointer + 1).toNat]] := by
      rw [List.take_succ, List.getElem?_eq_getElem hlt]
      rfl
    rw [redo_of_lt s hp, toTwoStack_eq s ⟨h1, h2⟩, toTwoStack_eq _ hv2]
    simp only [hn, htake]
    unfold TwoStack.redo
    rw [List.drop_eq_getElem_cons hlt]
    exact ⟨rfl, rfl⟩
  · have hn : (s.historyPointer + 1).toNat = s.history.length := by
      simp only [Int.ofNat_eq_coe] at *
      omega
    rw [redo_of_not_lt s hp, toTwoStack_eq s ⟨h1, h2⟩]
    unfold TwoStack.redo
    simp only [hn, List.drop_length]
    refine ⟨?_, ?_⟩ <;> first | rfl | trivial

theorem addStroke_refines (s : RoomState σ) (x : σ) (hi : Inv s) :
    (s.addStroke x).2.toTwoStack = s.toTwoStack.push x := by
  obtain ⟨hc, hv, hl⟩ := hi
  obtain ⟨a1, _, _⟩ := addStroke_last s x hv (by omega)
  have hlen := strokes_length s hv
  rw [toTwoStack_of_last _ a1]
  have hu : s.toTwoStack.undoStack = s.strokes := rfl
  have hcap : s.toTwoStack.cap = s.maxHistorySize := rfl
  unfold TwoStack.push
  rw [hu, hcap, addStroke_eq s x hv]
  split_ifs with h
  · have he : Int.ofNat (s.strokes ++ [x]).length - s.maxHistorySize = 1 := by
      have := hv.2
      simp only [List.length_append, List.length_singleton, Int.ofNat_eq_coe, Nat.cast_add,
        Nat.cast_one] at *
      omega
    simp only [he, jsSliceFrom_of_nonneg _ (1 : Int) (by omega), Int.toNat_one, List.drop_one]
  · rfl

theorem clear_refines (s : RoomState σ) : s.clear.toTwoStack = s.toTwoStack.clear := by
  rw [toTwoStack_of_last s.clear (by simp [clear])]
  rfl

theorem applyOp_refines (s : RoomState σ) (hi : Inv s) (op : Op σ) :
    (s.applyOp op).1 = (s.toTwoStack.applyOp op).1 ∧
    (s.applyOp op).2.toTwoStack = (s.toTwoStack.applyOp op).2 ∧ Inv (s.applyOp op).2 := by
  cases op with
  | addStroke x => exact ⟨rfl, addStroke_refines s x hi, inv_addStroke s x hi⟩
  | undo => exact ⟨(undo_refines s hi.2.1).1, (undo_refines s hi.2.1).2, inv_undo s hi⟩
  | redo => exact ⟨(redo_refines s hi.2.1).1, (redo_refines s hi.2.1).2, inv_redo s hi⟩
  | clear => exact ⟨rfl, clear_refines s, inv_clear s hi⟩

theorem runOps_refines (ops : List (Op σ)) :
    ∀ s : RoomState σ, Inv s →
      (s.runOps ops).1 = (s.toTwoStack.runOps ops).1 ∧
      (s.runOps ops).2.toTwoStack = (s.toTwoStack.runOps ops).2 := by
  induction ops with
  | nil =>
    intro s _
    exact ⟨rfl, rfl⟩
  | cons op ops ih =>
    intro s hi
    obtain ⟨b1, b2, b3⟩ := applyOp_refines s hi op
    obtain ⟨c1, c2⟩ := ih (s.applyOp op).2 b3
    rw [b2] at c1 c2
    unfold runOps TwoStack.runOps
    exact ⟨by rw [b1, c1], c2⟩

end RoomState

/-- C25: with a state mapped to (undo stack = visible strokes, redo stack =
`history[pointer+1..]`), from every reachable state each of `addStroke`, `undo`,
`redo` and `clear` on `RoomState` corresponds to the same operation on the
two-stack model, and after every finite operation sequence the success flags
are equal, the mapped state is the model state, and the visible strokes are
the undo stack. -/
theorem C25_two_stack_refinement (s : RoomState σ) (hr : Reachable s) (ops : List (Op σ)) :
    (∀ op, (s.applyOp op).1 = (s.toTwoStack.applyOp op).1 ∧
      (s.applyOp op).2.toTwoStack = (s.toTwoStack.applyOp op).2) ∧
    (s.runOps ops).1 = (s.toTwoStack.runOps ops).1 ∧
    (s.runOps ops).2.toTwoStack = (s.toTwoStack.runOps ops).2 ∧
    (s.runOps ops).2.strokes = (s.toTwoStack.runOps ops).2.undoStack := by
  have hi := inv_of_reachable s hr
  obtain ⟨c1, c2⟩ := runOps_refines ops s hi
  refine ⟨?_, c1, c2, ?_⟩
  · intro op
    exact ⟨(applyOp_refines s hi op).1, (applyOp_refines s hi op).2.1⟩
  · rw [← c2]
    rfl

/-- Witness of C25: commit `1`, commit `2`, undo, commit `3`, redo from a fresh
state. -/
theorem C25_two_stack_refinement_witness :
    Reachable (RoomState.new : RoomState Nat) ∧
    ((RoomState.new : RoomState Nat).runOps
      [Op.addStroke 1, Op.addStroke 2, Op.undo, Op.addStroke 3, Op.redo]).1 =
      ((RoomState.new : RoomState Nat).toTwoStack.runOps
        [Op.addStroke 1, Op.addStroke 2, Op.undo, Op.addStroke 3, Op.redo]).1 ∧
    ((RoomState.new : RoomState Nat).runOps
      [Op.addStroke 1, Op.addStroke 2, Op.undo, Op.addStroke 3, Op.redo]).1 =
      [true, true, true, true, false] ∧
    ((RoomState.new : RoomState Nat).runOps
      [Op.addStroke 1, Op.addStroke 2, Op.undo, Op.addStroke 3, Op.redo]).2.strokes = [1, 3] :=
  ⟨Reachable.new,
    (C25_two_stack_refinement (RoomState.new : RoomState Nat) Reachable.new
      [Op.addStroke 1, Op.addStroke 2, Op.undo, Op.addStroke 3, Op.redo]).2.1,
    by decide, by decide⟩

/-! ## Further lemmas and claims on `RoomManager` -/

namespace RoomManager

variable {ρ : Type u} {ι : Type v} [DecidableEq ρ] [DecidableEq ι]

theorem addUser_get_ne (m : RoomManager ρ ι) (r r' : ρ) (u : UserData ι) (hne : r' ≠ r) :
    (m.addUser r u).2.rooms.get r' = m.rooms.get r' := by
  rw [addUser_eq]
  exact JSMap.get_set_ne _ _ _ _ hne

theorem removeUser_get_ne (m : RoomManager ρ ι) (r r' : ρ) (i : ι) (hne : r' ≠ r) :
    (m.removeUser r i).2.rooms.get r' = m.rooms.get r' := by
  cases hg : m.rooms.get r with
  | none => rw [removeUser_of_none m r i hg]
  | some room =>
    rw [removeUser_of_some m r i room hg]
    split_ifs
    · exact (JSMap.get_delete_ne _ _ _ hne).trans (JSMap.get_set_ne _ _ _ _ hne)
    · exact JSMap.get_set_ne _ _ _ _ hne

theorem deleteRoom_get_ne (m : RoomManager ρ ι) (r r' : ρ) (hne : r' ≠ r) :
    (m.deleteRoom r).2.rooms.get r' = m.rooms.get r' :=
  JSMap.get_delete_ne _ _ _ hne

theorem getUsers_congr (m1 m2 : RoomManager ρ ι) (r : ρ) (h : m1.rooms.get r = m2.rooms.get r) :
    m1.getUsers r = m2.getUsers r ∧ m1.getUserCount r = m2.getUserCount r := by
  unfold getUsers getUserCount
  rw [h]
  exact ⟨rfl, rfl⟩

theorem foldl_size_ge (l : List (JSMap ι (UserData ι))) (h : ∀ x ∈ l, x.size ≠ 0) :
    ∀ acc : Nat, acc + l.length ≤ l.foldl (fun count room => count + room.size) acc := by
  induction l with
  | nil =>
    intro acc
    exact Nat.le_refl _
  | cons x l ih =>
    intro acc
    have hx : x.size ≠ 0 := h x (List.mem_cons_self _ _)
    have := ih (fun y hy => h y (List.mem_cons_of_mem _ hy)) (acc + x.size)
    simp only [List.foldl_cons, List.length_cons]
    omega

end RoomManager

section RegistryClaims

variable {ρ : Type u} {ι : Type v} [DecidableEq ρ] [DecidableEq ι]

/-- C21: for distinct room ids `r` and `r'`, `addUser(r, u)`,
`removeUser(r, id)` and `deleteRoom(r)` leave `getUsers(r')` and
`getUserCount(r')` unchanged. -/
theorem C21_membership_isolation (m : RoomManager ρ ι) (r r' : ρ) (u : UserData ι) (i : ι)
    (hne : r' ≠ r) :
    (m.addUser r u).2.getUsers r' = m.getUsers r' ∧
    (m.addUser r u).2.getUserCount r' = m.getUserCount r' ∧
    (m.removeUser r i).2.getUsers r' = m.getUsers r' ∧
    (m.removeUser r i).2.getUserCount r' = m.getUserCount r' ∧
    (m.deleteRoom r).2.getUsers r' = m.getUsers r' ∧
    (m.deleteRoom r).2.getUserCount r' = m.getUserCount r' := by
  obtain ⟨a1, a2⟩ := RoomManager.getUsers_congr _ m r' (RoomManager.addUser_get_ne m r r' u hne)
  obtain ⟨b1, b2⟩ :=
    RoomManager.getUsers_congr _ m r' (RoomManager.removeUser_get_ne m r r' i hne)
  obtain ⟨c1, c2⟩ := RoomManager.getUsers_congr _ m r' (RoomManager.deleteRoom_get_ne m r r' hne)
  exact ⟨a1, a2, b1, b2, c1, c2⟩

/-- Witness of C21: `bob` joins room `20` while `alice` is in room `10`. -/
theorem C21_membership_isolation_witness :
    (10 : Nat) ≠ 20 ∧
    (RoomManager.soloRoom.addUser 20 RoomManager.bob).2.getUserCount 10 =
      RoomManager.soloRoom.getUserCount 10 ∧
    (RoomManager.soloRoom.addUser 20 RoomManager.bob).2.getUserCount 20 = 1 :=
  ⟨by decide,
    (C21_membership_isolation RoomManager.soloRoom 20 10 RoomManager.bob 2
      (by decide)).2.1,
    by decide⟩

/-- C24: for a room id that is not in the registry, `getUsers(id)` returns the
empty list and `getUserCount(id)` is `0`; both reads are functions of the
registry that assign nothing, so the registry they were called on still has no
room `id`. -/
theorem C24_unknown_room_read (m : RoomManager ρ ι) (r : ρ) (h : r ∉ m.getRoomIds) :
    m.getUsers r = [] ∧ m.getUserCount r = 0 ∧ m.rooms.has r = false := by
  have hnone : m.rooms.get r = none := by
    have h2 : ¬ (m.rooms.get r).isSome = true := fun h3 => h ((JSMap.mem_keys_iff _ _).mpr h3)
    cases hg : m.rooms.get r with
    | none => rfl
    | some room => simp [hg] at h2
  unfold RoomManager.getUsers RoomManager.getUserCount JSMap.has
  rw [hnone]
  exact ⟨rfl, rfl, rfl⟩

/-- Witness of C24: room `30` is unknown to the registry holding room `10`. -/
theorem C24_unknown_room_read_witness :
    (30 : Nat) ∉ RoomManager.soloRoom.getRoomIds ∧ RoomManager.soloRoom.getUsers 30 = [] ∧
    RoomManager.soloRoom.getRoomIds = [10] :=
  ⟨by decide, (C24_unknown_room_read RoomManager.soloRoom 30 (by decide)).1, by decide⟩

/-- C28: in every registry reachable from an empty `RoomManager` by `addUser`,
`removeUser` and `deleteRoom`, each room in the map has at least one member;
so `isRoomEmpty(id)` is true exactly when `id` is not among `getRoomIds()`,
and `getTotalUserCount()` is at least `getRoomCount()`. -/
theorem C28_no_empty_room (m : RoomManager ρ ι) (hr : RoomManager.Reachable m) :
    (∀ r room, m.rooms.get r = some room → 1 ≤ room.size) ∧
    (∀ r, r ∈ m.getRoomIds → 1 ≤ m.getUserCount r) ∧
    (∀ r, m.isRoomEmpty r = true ↔ r ∉ m.getRoomIds) ∧
    m.getRoomCount ≤ m.getTotalUserCount := by
  obtain ⟨hn, _⟩ := RoomManager.registry_inv_of_reachable m hr
  have hroom : ∀ r room, m.rooms.get r = some room → 1 ≤ room.size := by
    intro r room hg
    have := hn (r, room) (mem_of_lookupEntry _ _ _ hg)
    simp only at this
    omega
  refine ⟨hroom, ?_, ?_, ?_⟩
  · intro r hmem
    rw [show m.getRoomIds = m.rooms.keys from rfl, JSMap.mem_keys_iff] at hmem
    obtain ⟨room, hg⟩ := Option.isSome_iff_exists.mp hmem
    unfold RoomManager.getUserCount
    rw [hg]
    exact hroom r room hg
  · intro r
    rw [show m.getRoomIds = m.rooms.keys from rfl, JSMap.mem_keys_iff]
    unfold RoomManager.isRoomEmpty
    cases hg : m.rooms.get r with
    | none => simp
    | some room =>
      have := hroom r room hg
      have hne : ¬ room.size = 0 := by omega
      simp [hne]
  · have hvals : ∀ x ∈ m.rooms.values, x.size ≠ 0 := by
      intro x hx
      obtain ⟨e, he, hex⟩ := List.mem_map.mp hx
      rw [← hex]
      exact hn e he
    have := RoomManager.foldl_size_ge m.rooms.values hvals 0
    have hlen : m.rooms.values.length = m.rooms.size := by
      unfold JSMap.values JSMap.size
      rw [List.length_map]
    show m.rooms.size ≤ m.rooms.values.foldl (fun count room => count + room.size) 0
    omega

/-- Witness of C28 on the registry with `alice` and `bob` in room `10`. -/
theorem C28_no_empty_room_witness :
    RoomManager.Reachable RoomManager.duoRoom ∧
    RoomManager.duoRoom.getRoomCount ≤ RoomManager.duoRoom.getTotalUserCount ∧
    RoomManager.duoRoom.getTotalUserCount = 2 ∧ RoomManager.duoRoom.getRoomCount = 1 :=
  ⟨RoomManager.Reachable.addUser _ 10 RoomManager.bob
      (RoomManager.Reachable.addUser _ 10 RoomManager.alice RoomManager.Reachable.new),
    (C28_no_empty_room RoomManager.duoRoom
      (RoomManager.Reachable.addUser _ 10 RoomManager.bob
        (RoomManager.Reachable.addUser _ 10 RoomManager.alice RoomManager.Reachable.new))).2.2.2,
    by decide, by decide⟩

end RegistryClaims

/-! ## Lemmas on the handlers -/

namespace RoomState

theorem undo_success_eq (s : RoomState σ) : s.undo.1.success = s.canUndo := by
  unfold undo
  cases h : s.canUndo <;> simp

theorem redo_success_eq (s : RoomState σ) : s.redo.1.success = s.canRedo := by
  unfold redo
  cases h : s.canRedo <;> simp

end RoomState

namespace StateManager

variable {ρ : Type v} [DecidableEq ρ]

theorem getRoomState_isSome (m : StateManager σ ρ) (r r' : ρ) :
    ((m.getRoomState r).2.rooms.get r').isSome =
      ((m.rooms.get r').isSome || decide (r' = r)) := by
  unfold getRoomState
  by_cases h : r' = r
  · rw [h, initRoom_get_same]
    simp
  · rw [initRoom_get_ne m r r' h]
    simp [h]

theorem touch_isSome (m : StateManager σ ρ) (r r' : ρ) (st : RoomState σ) :
    (((m.getRoomState r).2.rooms.set r st).get r').isSome =
      ((m.rooms.get r').isSome || decide (r' = r)) := by
  by_cases h : r' = r
  · rw [h, JSMap.get_set_same]
    simp
  · rw [JSMap.get_set_ne _ _ _ _ h]
    exact getRoomState_isSome m r r'

end StateManager

namespace RoomManager

variable {ρ : Type u} {ι : Type v} [DecidableEq ρ] [DecidableEq ι]

theorem addUser_get_same (m : RoomManager ρ ι) (r : ρ) (u : UserData ι) :
    (m.addUser r u).2.rooms.get r =
      some (((m.rooms.get r).getD JSMap.empty).set u.id u) := by
  rw [addUser_eq]
  exact JSMap.get_set_same _ _ _

theorem addUser_member_self (m : RoomManager ρ ι) (r : ρ) (u : UserData ι) :
    ((m.addUser r u).2.getUser r u.id).isSome = true := by
  unfold getUser
  rw [addUser_get_same]
  simp only
  rw [JSMap.get_set_same]
  rfl

theorem addUser_member_mono (m : RoomManager ρ ι) (r r' : ρ) (u : UserData ι) (i : ι)
    (h : (m.getUser r' i).isSome = true) : ((m.addUser r u).2.getUser r' i).isSome = true := by
  by_cases hr : r' = r
  · by_cases hi : i = u.id
    · rw [hr, hi]
      exact addUser_member_self m r u
    · rw [hr] at h ⊢
      unfold getUser at h ⊢
      rw [addUser_get_same]
      cases hg : m.rooms.get r with
      | none => simp [hg] at h
      | some room =>
        rw [hg] at h
        simp only [Option.getD_some] at h ⊢
        rw [JSMap.get_set_ne _ _ _ _ hi]
        exact h
  · unfold getUser at h ⊢
    rw [addUser_get_ne m r r' u hr]
    exact h

theorem removeUser_member_other (m : RoomManager ρ ι) (r r' : ρ) (i i' : ι) (hi : i' ≠ i)
    (h : (m.getUser r' i').isSome = true) :
    ((m.removeUser r i).2.getUser r' i').isSome = true := by
  by_cases hr : r' = r
  · rw [hr] at h ⊢
    unfold getUser at h
    cases hg : m.rooms.get r with
    | none => simp [hg] at h
    | some room =>
      rw [hg] at h
      simp only at h
      have hkeep : (room.delete i).2.get i' = room.get i' := JSMap.get_delete_ne room i i' hi
      obtain ⟨y, hy⟩ := Option.isSome_iff_exists.mp h
      have hsz : ¬ (room.delete i).2.size = 0 :=
        JSMap.size_pos_of_get _ i' y (hkeep.trans hy)
      rw [removeUser_of_some m r i room hg, if_neg hsz]
      unfold getUser
      rw [JSMap.get_set_same]
      simp only
      rw [hkeep]
      exact h
  · unfold getUser at h ⊢
    rw [removeUser_get_ne m r r' i hr]
    exact h

theorem removeUser_isRoomEmpty (m : RoomManager ρ ι) (r : ρ) (i : ι) :
    (m.removeUser r i).2.isRoomEmpty r = !((m.removeUser r i).2.rooms.get r).isSome := by
  cases hg : m.rooms.get r with
  | none =>
    rw [removeUser_of_none m r i hg]
    unfold isRoomEmpty
    rw [hg]
    rfl
  | some room =>
    rw [removeUser_of_some m r i room hg]
    split_ifs with h0
    · unfold isRoomEmpty
      rw [JSMap.get_delete_same]
      rfl
    · unfold isRoomEmpty
      rw [JSMap.get_set_same]
      simp [h0]

theorem removeUser_isSome_le (m : RoomManager ρ ι) (r : ρ) (i : ι)
    (h : ((m.removeUser r i).2.rooms.get r).isSome = true) : (m.rooms.get r).isSome = true := by
  cases hg : m.rooms.get r with
  | none =>
    rw [removeUser_of_none m r i hg] at h
    rw [hg] at h
    exact h
  | some room => rfl

end RoomManager

namespace Server

variable {ρ : Type v} {ι : Type w} [DecidableEq ρ] [DecidableEq ι]

theorem onStrokeEnd_state (srv : Server σ ρ ι) (sid : ι) (x : σ) (r : ρ)
    (hroom : (srv.vars sid).currentRoom = some r) :
    (srv.onStrokeEnd sid x).2 =
      { srv with
        stateManager := ((srv.stateManager.addStroke r x).2.getRoomState r).2 } := by
  unfold onStrokeEnd
  rw [hroom]

theorem onUndoRequest_state (srv : Server σ ρ ι) (sid : ι) (r : ρ)
    (hroom : (srv.vars sid).currentRoom = some r) :
    (srv.onUndoRequest sid).2 =
      { srv with stateManager := (srv.stateManager.undoIn r).2.2 } := by
  unfold onUndoRequest
  rw [hroom]
  simp only
  split_ifs <;> rfl

theorem onRedoRequest_state (srv : Server σ ρ ι) (sid : ι) (r : ρ)
    (hroom : (srv.vars sid).currentRoom = some r) :
    (srv.onRedoRequest sid).2 =
      { srv with stateManager := (srv.stateManager.redoIn r).2.2 } := by
  unfold onRedoRequest
  rw [hroom]
  simp only
  split_ifs <;> rfl

theorem onCanvasClear_state (srv : Server σ ρ ι) (sid : ι) (r : ρ)
    (hroom : (srv.vars sid).currentRoom = some r) :
    (srv.onCanvasClear sid).2 =
      { srv with stateManager := srv.stateManager.clearRoom r } := by
  unfold onCanvasClear
  rw [hroom]

/-- A handler that only touches the `RoomState` of the sender's room keeps the
invariant. -/
theorem inv_of_touch (srv : Server σ ρ ι) (gone : List ι) (sid : ι) (r : ρ)
    (sm : StateManager σ ρ) (hi : Inv srv gone) (hlive : sid ∉ gone)
    (hroom : (srv.vars sid).currentRoom = some r)
    (hsm : ∀ r', (sm.rooms.get r').isSome =
      ((srv.stateManager.rooms.get r').isSome || decide (r' = r))) :
    Inv ({ srv with stateManager := sm } : Server σ ρ ι) gone := by
  obtain ⟨i1, i2, i3⟩ := hi
  refine ⟨i1, ?_, i3⟩
  intro r'
  show (sm.rooms.get r').isSome = (srv.roomManager.rooms.get r').isSome
  rw [hsm r', i2 r']
  by_cases h : r' = r
  · have hmem := i3 sid r hlive hroom
    unfold RoomManager.getUser at hmem
    rw [h]
    cases hg : srv.roomManager.rooms.get r with
    | none => simp [hg] at hmem
    | some room => simp
  · simp [h]

theorem inv_onStrokeEnd (srv : Server σ ρ ι) (gone : List ι) (sid : ι) (x : σ)
    (hi : Inv srv gone) (hlive : sid ∉ gone) : Inv (srv.onStrokeEnd sid x).2 gone := by
  cases hroom : (srv.vars sid).currentRoom with
  | none =>
    unfold onStrokeEnd
    rw [hroom]
    exact hi
  | some r =>
    rw [onStrokeEnd_state srv sid x r hroom]
    refine inv_of_touch srv gone sid r _ hi hlive hroom ?_
    intro r'
    rw [StateManager.getRoomState_isSome]
    unfold StateManager.addStroke
    simp only
    rw [StateManager.touch_isSome]
    cases (srv.stateManager.rooms.get r').isSome <;> cases decide (r' = r) <;> rfl

theorem inv_onUndoRequest (srv : Server σ ρ ι) (gone : List ι) (sid : ι)
    (hi : Inv srv gone) (hlive : sid ∉ gone) : Inv (srv.onUndoRequest sid).2 gone := by
  cases hroom : (srv.vars sid).currentRoom with
  | none =>
    unfold onUndoRequest
    rw [hroom]
    exact hi
  | some r =>
    rw [onUndoRequest_state srv sid r hroom]
    refine inv_of_touch srv gone sid r _ hi hlive hroom ?_
    intro r'
    unfold StateManager.undoIn
    exact StateManager.touch_isSome _ _ _ _

theorem inv_onRedoRequest (srv : Server σ ρ ι) (gone : List ι) (sid : ι)
    (hi : Inv srv gone) (hlive : sid ∉ gone) : Inv (srv.onRedoRequest sid).2 gone := by
  cases hroom : (srv.vars sid).currentRoom with
  | none =>
    unfold onRedoRequest
    rw [hroom]
    exact hi
  | some r =>
    rw [onRedoRequest_state srv sid r hroom]
    refine inv_of_touch srv gone sid r _ hi hlive hroom ?_
    intro r'
    unfold StateManager.redoIn
    exact StateManager.touch_isSome _ _ _ _

theorem inv_onCanvasClear (srv : Server σ ρ ι) (gone : List ι) (sid : ι)
    (hi : Inv srv gone) (hlive : sid ∉ gone) : Inv (srv.onCanvasClear sid).2 gone := by
  cases hroom : (srv.vars sid).currentRoom with
  | none =>
    unfold onCanvasClear
    rw [hroom]
    exact hi
  | some r =>
    rw [onCanvasClear_state srv sid r hroom]
    refine inv_of_touch srv gone sid r _ hi hlive hroom ?_
    intro r'
    unfold StateManager.clearRoom
    exact StateManager.touch_isSome _ _ _ _

end Server

namespace RoomManager

variable {ρ : Type u} {ι : Type v} [DecidableEq ρ] [DecidableEq ι]

theorem noEmpty_addUser (m : RoomManager ρ ι) (r : ρ) (u : UserData ι) (hn : NoEmptyRoom m) :
    NoEmptyRoom (m.addUser r u).2 := by
  rw [addUser_eq]
  intro e he
  rcases mem_setEntry _ _ _ _ he with h | h
  · exact hn e h
  · rw [h]
    exact JSMap.size_pos_of_get _ u.id u (JSMap.get_set_same _ _ _)

theorem noEmpty_removeUser (m : RoomManager ρ ι) (r : ρ) (i : ι) (hn : NoEmptyRoom m) :
    NoEmptyRoom (m.removeUser r i).2 := by
  cases hg : m.rooms.get r with
  | none =>
    rw [removeUser_of_none m r i hg]
    exact hn
  | some room =>
    rw [removeUser_of_some m r i room hg]
    split_ifs with h0
    · intro e he
      obtain ⟨h1, h2⟩ := mem_deleteEntry _ _ _ he
      rcases mem_setEntry _ _ _ _ h1 with h | h
      · exact hn e h
      · exact absurd (by rw [h]) h2
    · intro e he
      rcases mem_setEntry _ _ _ _ he with h | h
      · exact hn e h
      · rw [h]
        exact h0

end RoomManager

namespace Server

variable {ρ : Type v} {ι : Type w} [DecidableEq ρ] [DecidableEq ι]

theorem onDisconnect_state (srv : Server σ ρ ι) (sid : ι) (r : ρ) (u : UserData ι)
    (hroom : (srv.vars sid).currentRoom = some r) (hu : (srv.vars sid).userData = some u) :
    (srv.onDisconnect sid).2 =
      { srv with
        roomManager := (srv.roomManager.removeUser r sid).2,
        stateManager :=
          if (srv.roomManager.removeUser r sid).2.isRoomEmpty r then
            srv.stateManager.cleanupRoom r
          else srv.stateManager } := by
  unfold onDisconnect
  rw [hroom, hu]

theorem onDisconnect_idle (srv : Server σ ρ ι) (sid : ι)
    (h : (srv.vars sid).currentRoom = none ∨ (srv.vars sid).userData = none) :
    (srv.onDisconnect sid).2 = srv := by
  unfold onDisconnect
  cases hroom : (srv.vars sid).currentRoom with
  | none => rfl
  | some r =>
    cases hu : (srv.vars sid).userData with
    | none => rfl
    | some u =>
      rw [hroom, hu] at h
      simp at h

theorem inv_init : Inv (Server.init : Server σ ρ ι) [] := by
  refine ⟨?_, ?_, ?_⟩
  · intro e he
    simp [Server.init, RoomManager.new, JSMap.empty] at he
  · intro r
    rfl
  · intro i r _ h
    simp [Server.init] at h

theorem inv_onRoomJoin (srv : Server σ ρ ι) (gone : List ι) (sid : ι) (roomId : Option ρ)
    (dflt : ρ) (name color : String) (now : Nat) (hi : Inv srv gone) :
    Inv (srv.onRoomJoin sid roomId dflt name color now).2 gone := by
  obtain ⟨i1, i2, i3⟩ := hi
  unfold onRoomJoin
  refine ⟨RoomManager.noEmpty_addUser _ _ _ i1, ?_, ?_⟩
  · intro r'
    simp only
    rw [StateManager.getRoomState_isSome]
    have hinit := StateManager.getRoomState_isSome srv.stateManager (roomId.getD dflt) r'
    unfold StateManager.getRoomState at hinit
    rw [hinit, i2 r']
    by_cases h : r' = roomId.getD dflt
    · rw [h, RoomManager.addUser_get_same]
      simp
    · rw [RoomManager.addUser_get_ne _ _ _ _ h]
      simp [h]
  · intro i r' hlive hcur
    simp only at hcur ⊢
    by_cases h : i = sid
    · rw [h, Function.update_same] at hcur
      simp only [Option.some.injEq] at hcur
      rw [h, ← hcur]
      exact RoomManager.addUser_member_self srv.roomManager (roomId.getD dflt)
        { id := sid, name := name, color := color, joinedAt := now }
    · rw [Function.update_noteq h] at hcur
      exact RoomManager.addUser_member_mono _ _ _ _ _ (i3 i r' hlive hcur)

theorem inv_onDisconnect (srv : Server σ ρ ι) (gone : List ι) (sid : ι) (hi : Inv srv gone) :
    Inv (srv.onDisconnect sid).2 (sid :: gone) := by
  obtain ⟨i1, i2, i3⟩ := hi
  cases hroom : (srv.vars sid).currentRoom with
  | none =>
    rw [onDisconnect_idle srv sid (Or.inl hroom)]
    exact ⟨i1, i2, fun i r hl hc => i3 i r (fun hg => hl (List.mem_cons_of_mem _ hg)) hc⟩
  | some r =>
    cases hu : (srv.vars sid).userData with
    | none =>
      rw [onDisconnect_idle srv sid (Or.inr hu)]
      exact ⟨i1, i2, fun i r hl hc => i3 i r (fun hg => hl (List.mem_cons_of_mem _ hg)) hc⟩
    | some u =>
      rw [onDisconnect_state srv sid r u hroom hu]
      refine ⟨RoomManager.noEmpty_removeUser _ _ _ i1, ?_, ?_⟩
      · intro r'
        simp only
        by_cases h : r' = r
        · rw [h, RoomManager.removeUser_isRoomEmpty]
          cases hs : ((srv.roomManager.removeUser r sid).2.rooms.get r).isSome with
          | false =>
            simp only [Bool.not_false, if_true]
            unfold StateManager.cleanupRoom
            rw [JSMap.get_delete_same]
            rfl
          | true =>
            simp only [Bool.not_true, Bool.false_eq_true, if_false]
            rw [i2 r]
            exact RoomManager.removeUser_isSome_le _ _ _ hs
        · rw [RoomManager.removeUser_get_ne _ _ _ _ h, ← i2 r']
          split_ifs
          · unfold StateManager.cleanupRoom
            rw [JSMap.get_delete_ne _ _ _ h]
          · rfl
      · intro i r' hl hc
        have hne : i ≠ sid := fun h => hl (h ▸ List.mem_cons_self _ _)
        have hlive : i ∉ gone := fun hg => hl (List.mem_cons_of_mem _ hg)
        exact RoomManager.removeUser_member_other _ _ _ _ _ hne (i3 i r' hlive hc)

theorem server_inv_of_reachable (dflt : ρ) (srv : Server σ ρ ι) (gone : List ι)
    (hr : Reachable dflt srv gone) : Inv srv gone := by
  induction hr with
  | init => exact inv_init
  | step srv gone ev _ hlive ih =>
    cases ev with
    | roomJoin i roomId name color now => exact inv_onRoomJoin srv gone i roomId dflt name color now ih
    | strokeEnd i x => exact inv_onStrokeEnd srv gone i x ih hlive
    | undoRequest i => exact inv_onUndoRequest srv gone i ih hlive
    | redoRequest i => exact inv_onRedoRequest srv gone i ih hlive
    | canvasClear i => exact inv_onCanvasClear srv gone i ih hlive
    | disconnect i => exact inv_onDisconnect srv gone i ih

end Server

namespace Server

variable {ρ : Type v} {ι : Type w} [DecidableEq ρ] [DecidableEq ι]

theorem lifecycle_of_inv (srv : Server σ ρ ι) (gone : List ι) (hi : Inv srv gone) (r : ρ) :
    (srv.stateManager.rooms.get r).isSome = true ↔ 1 ≤ srv.roomManager.getUserCount r := by
  obtain ⟨i1, i2, _⟩ := hi
  rw [i2 r]
  unfold RoomManager.getUserCount
  cases hg : srv.roomManager.rooms.get r with
  | none => simp
  | some room =>
    have := i1 (r, room) (mem_of_lookupEntry _ _ _ hg)
    simp only at this
    simp only [Option.isSome_some, true_iff]
    omega

end Server

/-! ## The claims on the handlers -/

section ServerClaims

variable {ρ : Type v} {ι : Type w} [DecidableEq ρ] [DecidableEq ι]

/-- C23: in every server state reachable from start-up by `room:join`,
`stroke:end`, `undo:request`, `redo:request`, `canvas:clear` and `disconnect`
events, where a socket sends nothing after its disconnect, the `StateManager`
holds a `RoomState` for a room id if and only if the `RoomManager` has at
least one member for that id; a `room:join` leaves a `RoomState` stored for the
joined room, and a `disconnect` that leaves a room without members leaves no
`RoomState` for it. -/
theorem C23_room_lifecycle (dflt : ρ) (srv : Server σ ρ ι) (gone : List ι)
    (hr : Server.Reachable dflt srv gone) :
    (∀ r, (srv.stateManager.rooms.get r).isSome = true ↔
      1 ≤ srv.roomManager.getUserCount r) ∧
    (∀ sid roomId name color now,
      ((srv.onRoomJoin sid roomId dflt name color now).2.stateManager.rooms.get
        (roomId.getD dflt)).isSome = true) ∧
    (∀ sid r, (srv.onDisconnect sid).2.roomManager.getUserCount r = 0 →
      (srv.onDisconnect sid).2.stateManager.rooms.get r = none) := by
  have hi := Server.server_inv_of_reachable dflt srv gone hr
  refine ⟨Server.lifecycle_of_inv srv gone hi, ?_, ?_⟩
  · intro sid roomId name color now
    unfold Server.onRoomJoin
    simp only
    rw [StateManager.getRoomState_isSome]
    simp
  · intro sid r h0
    have h := Server.lifecycle_of_inv _ _ (Server.inv_onDisconnect srv gone sid hi) r
    cases hg : (srv.onDisconnect sid).2.stateManager.rooms.get r with
    | none => rfl
    | some st =>
      rw [hg] at h
      have := h.mp rfl
      omega

/-- Witness of C23: socket `1` joined room `10` and committed a stroke. -/
theorem C23_room_lifecycle_witness :
    Server.Reachable 0 Server.soloServer [] ∧
    ((Server.soloServer.stateManager.rooms.get 10).isSome = true ↔
      1 ≤ Server.soloServer.roomManager.getUserCount 10) ∧
    Server.soloServer.roomManager.getUserCount 10 = 1 :=
  ⟨Server.Reachable.step _ [] (Event.strokeEnd 1 7)
      (Server.Reachable.step _ [] (Event.roomJoin 1 (some 10) "SwiftArtist7" "#EF4444" 0)
        Server.Reachable.init (by decide)) (by decide),
    (C23_room_lifecycle 0 Server.soloServer []
      (Server.Reachable.step _ [] (Event.strokeEnd 1 7)
        (Server.Reachable.step _ [] (Event.roomJoin 1 (some 10) "SwiftArtist7" "#EF4444" 0)
          Server.Reachable.init (by decide)) (by decide))).1 10,
    by decide⟩

/-- C22 as stated fails: socket `1` is in room `10`, where nothing is drawn;
its `undo:request` and its `redo:request` fail and the handlers emit no message
at all, so nothing reports the failure to the requester. -/
theorem C22_failure_not_reported_counterexample :
    (Server.joinedEmpty.vars 1).currentRoom = some 10 ∧
    (Server.joinedEmpty.stateManager.getRoomState 10).1.undo.1.success = false ∧
    (Server.joinedEmpty.stateManager.getRoomState 10).1.redo.1.success = false ∧
    (Server.joinedEmpty.onUndoRequest 1).1.length = 0 ∧
    (Server.joinedEmpty.onRedoRequest 1).1.length = 0 := by
  decide

/-- C22, amended: when the sender is in room `r` and there is nothing to undo
(or redo), the handler emits nothing, neither to the room nor to the
requester; when the operation succeeds, the one message emitted goes to the
entire room and carries the new visible strokes with `canUndo` and `canRedo`
of the room state now stored for `r`. -/
theorem C22_undo_redo_emits (srv : Server σ ρ ι) (sid : ι) (r : ρ)
    (hroom : (srv.vars sid).currentRoom = some r) :
    ((srv.stateManager.getRoomState r).1.canUndo = false → (srv.onUndoRequest sid).1 = []) ∧
    ((srv.stateManager.getRoomState r).1.canRedo = false → (srv.onRedoRequest sid).1 = []) ∧
    ((srv.stateManager.getRoomState r).1.canUndo = true →
      (srv.onUndoRequest sid).1 =
        [⟨Target.room r,
          Payload.undoApplied (srv.stateManager.getRoomState r).1.undo.2.strokes
            (srv.stateManager.getRoomState r).1.undo.2.canUndo
            (srv.stateManager.getRoomState r).1.undo.2.canRedo
            (((srv.vars sid).userData).map UserData.name)⟩] ∧
      (srv.onUndoRequest sid).2.stateManager.rooms.get r =
        some (srv.stateManager.getRoomState r).1.undo.2) ∧
    ((srv.stateManager.getRoomState r).1.canRedo = true →
      (srv.onRedoRequest sid).1 =
        [⟨Target.room r,
          Payload.redoApplied (srv.stateManager.getRoomState r).1.redo.2.strokes
            (srv.stateManager.getRoomState r).1.redo.2.canUndo
            (srv.stateManager.getRoomState r).1.redo.2.canRedo
            (((srv.vars sid).userData).map UserData.name)⟩] ∧
      (srv.onRedoRequest sid).2.stateManager.rooms.get r =
        some (srv.stateManager.getRoomState r).1.redo.2) := by
  have hu : (srv.stateManager.undoIn r).1.success = (srv.stateManager.getRoomState r).1.canUndo :=
    RoomState.undo_success_eq _
  have hd : (srv.stateManager.redoIn r).1.success = (srv.stateManager.getRoomState r).1.canRedo :=
    RoomState.redo_success_eq _
  refine ⟨?_, ?_, ?_, ?_⟩
  · intro h
    unfold Server.onUndoRequest
    rw [hroom]
    simp only [hu, h, Bool.false_eq_true, if_false]
  · intro h
    unfold Server.onRedoRequest
    rw [hroom]
    simp only [hd, h, Bool.false_eq_true, if_false]
  · intro h
    constructor
    · unfold Server.onUndoRequest
      rw [hroom]
      simp only [hu, h, if_true]
      rfl
    · rw [Server.onUndoRequest_state srv sid r hroom]
      exact JSMap.get_set_same _ _ _
  · intro h
    constructor
    · unfold Server.onRedoRequest
      rw [hroom]
      simp only [hd, h, if_true]
      rfl
    · rw [Server.onRedoRequest_state srv sid r hroom]
      exact JSMap.get_set_same _ _ _

/-- Witness of C22 (amended): socket `1` undoes the one stroke of room `10`. -/
theorem C22_undo_redo_emits_witness :
    (Server.soloServer.vars 1).currentRoom = some 10 ∧
    (Server.soloServer.stateManager.getRoomState 10).1.canUndo = true ∧
    (Server.soloServer.onUndoRequest 1).1.length = 1 ∧
    (Server.soloServer.stateManager.getRoomState 10).1.canRedo = false ∧
    (Server.soloServer.onRedoRequest 1).1 = [] :=
  ⟨by decide, by decide, by decide, by decide,
    (C22_undo_redo_emits Server.soloServer 1 10 (by decide)).2.1 (by decide)⟩

/-- C29 fails on the code: socket `1` sends `room:join` for room `10`, then
`room:join` for room `20`, then disconnects; the handler removes it from room
`20` only, and afterwards it is still a member of room `10`, which stays in
the registry with its `RoomState`. -/
theorem C29_stale_member_after_disconnect :
    (Server.twoJoins.vars 1).currentRoom = some 20 ∧
    ((Server.twoJoins.onDisconnect 1).2.roomManager.getUser 20 1).isSome = false ∧
    ((Server.twoJoins.onDisconnect 1).2.roomManager.getUser 10 1).isSome = true ∧
    (Server.twoJoins.onDisconnect 1).2.roomManager.getRoomIds = [10] ∧
    (Server.twoJoins.onDisconnect 1).2.roomManager.getUserCount 10 = 1 ∧
    ((Server.twoJoins.onDisconnect 1).2.stateManager.rooms.get 10).isSome = true := by
  decide

end ServerClaims

end Canvas
